import Mathlib

/-!
Starknet program parser (`pkg/parsers/starknet/program.go`).

A shallow embedding of the JSON codec for compiled Starknet programs:
the `Builtin` enumeration with its `MarshalJSON` / `UnmarshalJSON` pair,
the tuple-shaped `Hints` record, and the `Program` aggregate loaded by
`ProgramFromJSON`.

Go strings and `[]byte` values are lists of bytes (`Bytes`).  The standard
library routines the source calls (`strconv.Unquote`, `unicode/utf8`,
`encoding/json`) are embedded next to the code that uses them, following
their Go implementation.  A document handed to `encoding/json` is the tree of
its values (`Json`), `none` standing for bytes that are not JSON; the scanner
is embedded (`scanJson`) where the library runs it on the text a method
`MarshalJSON` returns.  A method returns its result or error as a value; a
run-time panic is an outcome of its own.
-/

namespace Starknet

/-- A Go string or byte slice: a sequence of bytes, each below 256. -/
abbrev Bytes := List Nat

/-- The bytes of an ASCII string literal. -/
def lit (s : String) : Bytes := s.toList.map Char.toNat

/-- Errors returned by the codec. -/
inductive Err where
  /-- The `strconv.ErrSyntax` value, also `json.SyntaxError`. -/
  | syntaxErr
  /-- Wrapping of an unquoting failure: "error unmarsahling builtin: ...". -/
  | unquoteBuiltin
  /-- Text outside the nine names: "error unmarsahling unknwon builtin name: ...". -/
  | unknownBuiltin (name : Bytes)
  /-- Discriminant outside 1..9: "error marshaling builtin with unknow identifer: ...". -/
  | marshalBuiltin (id : Nat)
  /-- A `json.UnmarshalTypeError`. -/
  | typeErr
  /-- The message "error unmarshaling hints: index should be uint64". -/
  | hintIndex
  /-- An error of a decoder living outside this file (field elements, hints). -/
  | external (code : Nat)
  /-- An error of `json.Marshal` on a value whose `MarshalJSON` output is not JSON. -/
  | marshalerErr
  /-- An error of `os.ReadFile`. -/
  | readErr (code : Nat)
  deriving DecidableEq, Repr

deriving instance DecidableEq for Except

/-! ## `unicode/utf8` -/

/-- The constant `utf8.RuneSelf`. -/
def runeSelf : Nat := 128

/-- The constant `utf8.RuneError`. -/
def runeError : Nat := 65533

/-- The constant `utf8.MaxRune`. -/
def maxRune : Nat := 1114111

/-- Entry of the `first` table joined with `acceptRanges`: for a leading byte,
`none` when the byte is ASCII or invalid, else the sequence length and the
accepted range of the second byte. -/
def firstInfo (b : Nat) : Option (Nat × Nat × Nat) :=
  if b < 194 then none
  else if b < 224 then some (2, 128, 191)
  else if b = 224 then some (3, 160, 191)
  else if b < 237 then some (3, 128, 191)
  else if b = 237 then some (3, 128, 159)
  else if b < 240 then some (3, 128, 191)
  else if b = 240 then some (4, 144, 191)
  else if b < 244 then some (4, 128, 191)
  else if b = 244 then some (4, 128, 143)
  else none

/-- Continuation byte test: `locb <= c && c <= hicb`. -/
def isCont (c : Nat) : Bool := 128 ≤ c && c ≤ 191

/-- The function `utf8.DecodeRuneInString`: the first rune and its width.
Masks and shifts are written as remainders and products. -/
def decodeRune (s : Bytes) : Nat × Nat :=
  match s with
  | [] => (runeError, 0)
  | s0 :: t =>
    match firstInfo s0 with
    | none => if s0 < runeSelf then (s0, 1) else (runeError, 1)
    | some (sz, lo, hi) =>
      if t.length + 1 < sz then (runeError, 1) else
      match t with
      | [] => (runeError, 1)
      | s1 :: t1 =>
        if s1 < lo || hi < s1 then (runeError, 1)
        else if sz ≤ 2 then (s0 % 32 * 64 + s1 % 64, 2)
        else match t1 with
          | [] => (runeError, 1)
          | s2 :: t2 =>
            if !isCont s2 then (runeError, 1)
            else if sz ≤ 3 then (s0 % 16 * 4096 + s1 % 64 * 64 + s2 % 64, 3)
            else match t2 with
              | [] => (runeError, 1)
              | s3 :: _ =>
                if !isCont s3 then (runeError, 1)
                else (s0 % 8 * 262144 + s1 % 64 * 4096 + s2 % 64 * 64 + s3 % 64, 4)

/-- The function `utf8.ValidString`. -/
def validString : Bytes → Bool
  | [] => true
  | s0 :: t =>
    if s0 < runeSelf then validString t else
    match firstInfo s0 with
    | none => false
    | some (sz, lo, hi) =>
      match t with
      | [] => false
      | s1 :: t1 =>
        if s1 < lo || hi < s1 then false
        else if sz = 2 then validString t1
        else match t1 with
          | [] => false
          | s2 :: t2 =>
            if !isCont s2 then false
            else if sz = 3 then validString t2
            else match t2 with
              | [] => false
              | s3 :: t3 => if !isCont s3 then false else validString t3

/-- The function `utf8.ValidRune`. -/
def validRune (r : Nat) : Bool := r < 55296 || (57343 < r && r ≤ maxRune)

/-- The function `utf8.AppendRune`, returning the bytes appended. -/
def encodeRune (r : Nat) : Bytes :=
  if r ≤ 127 then [r]
  else if r ≤ 2047 then [192 + r / 64, 128 + r % 64]
  else if r > maxRune || (55296 ≤ r && r ≤ 57343) then [239, 191, 189]
  else if r ≤ 65535 then [224 + r / 4096, 128 + r / 64 % 64, 128 + r % 64]
  else [240 + r / 262144, 128 + r / 4096 % 64, 128 + r / 64 % 64, 128 + r % 64]

/-! ## `strconv.Unquote` -/

/-- Index of the first occurrence of `c`: the helper `index`. -/
def indexByte (c : Nat) : Bytes → Option Nat
  | [] => none
  | b :: t => if b = c then some 0 else (indexByte c t).map (· + 1)

/-- The helper `unhex`: the value of a hexadecimal digit. -/
def unhex (b : Nat) : Option Nat :=
  if 48 ≤ b && b ≤ 57 then some (b - 48)
  else if 97 ≤ b && b ≤ 102 then some (b - 97 + 10)
  else if 65 ≤ b && b ≤ 70 then some (b - 65 + 10)
  else none

/-- The digit loop of `UnquoteChar` for `\x`, `\u` and `\U`: reads `n`
hexadecimal digits, `v = v<<4 | x` at each one. -/
def readHex : Nat → Nat → Bytes → Option (Nat × Bytes)
  | 0, v, s => some (v, s)
  | _ + 1, _, [] => none
  | n + 1, v, b :: t =>
    match unhex b with
    | none => none
    | some x => readHex n (v * 16 + x) t

/-- The digit loop of `UnquoteChar` for octal escapes, `v = (v << 3) | x`. -/
def readOct : Nat → Nat → Bytes → Option (Nat × Bytes)
  | 0, v, s => some (v, s)
  | _ + 1, _, [] => none
  | n + 1, v, b :: t =>
    if 48 ≤ b && b ≤ 55 then readOct n (v * 8 + (b - 48)) t else none

/-- The function `strconv.UnquoteChar`: decodes the first character or escape
of `s`; returns the value, the `multibyte` flag and the tail; `none` is
`ErrSyntax`. -/
def unquoteChar (s : Bytes) ( quote : Nat) : Option (Nat × Bool × Bytes) :=
  match s with
  | [] => none
  | c :: t =>
    if c = quote && (quote = 39 || quote = 34) then none
    else if c ≥ runeSelf then
      let (r, size) := decodeRune s
      some (r, true, s.drop size)
    else if c ≠ 92 then some (c, false, t)
    else
      match t with
      | [] => none
      | c1 :: s2 =>
        if c1 = 97 then some (7, false, s2)
        else if c1 = 98 then some (8, false, s2)
        else if c1 = 102 then some (12, false, s2)
        else if c1 = 110 then some (10, false, s2)
        else if c1 = 114 then some (13, false, s2)
        else if c1 = 116 then some (9, false, s2)
        else if c1 = 118 then some (11, false, s2)
        else if c1 = 120 || c1 = 117 || c1 = 85 then
          let n := if c1 = 120 then 2 else if c1 = 117 then 4 else 8
          match readHex n 0 s2 with
          | none => none
          | some (v, s3) =>
            if c1 = 120 then some (v, false, s3)
            else if !validRune v then none
            else some (v, true, s3)
        else if 48 ≤ c1 && c1 ≤ 55 then
          match readOct 2 (c1 - 48) s2 with
          | none => none
          | some (v, s3) => if v > 255 then none else some (v, false, s3)
        else if c1 = 92 then some (92, false, s2)
        else if c1 = 39 || c1 = 34 then
          if c1 ≠ quote then none else some (c1, false, s2)
        else none

/-- The append step of the loop of `unquote`: a single byte for an ASCII or
single-byte value, the UTF-8 encoding otherwise. -/
def appendValue (buf : Bytes) (r : Nat) (multibyte : Bool) : Bytes :=
  if r < runeSelf || !multibyte then buf ++ [r % 256] else buf ++ encodeRune r

/-- The loop of `unquote` over a quoted string with escape sequences.  `inp` is
the text after the opening quote, `buf` the bytes decoded so far.  Returns
the decoded bytes and what follows the closing quote.  Each round consumes
at least one byte, so `fuel` above the length of `inp` is never exhausted. -/
def unquoteLoop ( quote : Nat) : Nat → Bytes → Bytes → Option (Bytes × Bytes)
  | 0, _, _ => none
  | fuel + 1, inp, buf =>
    match inp with
    | [] => none
    | c :: rest =>
      if c = quote then some (buf, rest)
      else
        match unquoteChar inp quote with
        | none => none
        | some (r, multibyte, rem) =>
          if c = 10 then none
          else
            let buf1 := appendValue buf r multibyte
            if quote = 39 then
              match rem with
              | [] => none
              | c2 :: rest2 => if c2 = quote then some (buf1, rest2) else none
            else unquoteLoop quote fuel rem buf1

/-- The function `unquote` of package strconv with `unescape = true`: the
decoded text and the remainder of the input; `none` is `ErrSyntax`. -/
def unquote (inp : Bytes) : Option (Bytes × Bytes) :=
  match inp with
  | [] => none
  | [_] => none
  | quote :: tail =>
    match indexByte quote tail with
    | none => none
    | some e =>
      -- `e` is the offset of the closing quote inside `tail`
      let body := tail.take e
      let rem := tail.drop (e + 1)
      if quote = 96 then
        some (body.filter (· ≠ 13), rem)
      else if quote = 34 || quote = 39 then
        let fast : Bool :=
          !(inp.take (e + 2)).contains 92 && !(inp.take (e + 2)).contains 10 &&
          (if quote = 34 then validString body
           else
             let (r, n) := decodeRune body
             (1 + n + 1 == e + 2) && (r ≠ runeError || n ≠ 1))
        if fast then some (body, rem)
        else unquoteLoop quote (tail.length + 1) tail []
      else none

/-- The function `strconv.Unquote`: `none` is `ErrSyntax`. -/
def Unquote (s : Bytes) : Option Bytes :=
  match unquote s with
  | none => none
  | some (out, rem) => if rem.length > 0 then none else some out

/-! ## `Builtin` -/

/-- The type `Builtin`, declared `uint8`: the discriminant, below 256. -/
abbrev Builtin := Nat

/-- First constant of the `iota + 1` block. -/
def Output : Builtin := 1
/-- Second constant of the block. -/
def RangeCheck : Builtin := 2
/-- Third constant of the block. -/
def Pedersen : Builtin := 3
/-- Fourth constant of the block. -/
def ECDSA : Builtin := 4
/-- Fifth constant of the block. -/
def Keccak : Builtin := 5
/-- Sixth constant of the block. -/
def Bitwise : Builtin := 6
/-- Seventh constant of the block. -/
def ECOP : Builtin := 7
/-- Eighth constant of the block. -/
def Poseidon : Builtin := 8
/-- Ninth constant of the block. -/
def SegmentArena : Builtin := 9

/-- The nine variants, in declaration order. -/
def allBuiltins : List Builtin :=
  [Output, RangeCheck, Pedersen, ECDSA, Keccak, Bitwise, ECOP, Poseidon, SegmentArena]

/-- The nine identifiers, in declaration order. -/
def builtinNames : List Bytes :=
  [lit "output", lit "range_check", lit "pedersen", lit "ecdsa", lit "keccak",
   lit "bitwise", lit "ec_op", lit "poseidon", lit "segment_arena"]

/-- The method `Builtin.MarshalJSON`: the switch over the nine constants, an
error for any other discriminant. -/
def Builtin.MarshalJSON (b : Builtin) : Except Err Bytes :=
  if b = Output then .ok (lit "output")
  else if b = RangeCheck then .ok (lit "range_check")
  else if b = Pedersen then .ok (lit "pedersen")
  else if b = ECDSA then .ok (lit "ecdsa")
  else if b = Keccak then .ok (lit "keccak")
  else if b = Bitwise then .ok (lit "bitwise")
  else if b = ECOP then .ok (lit "ec_op")
  else if b = Poseidon then .ok (lit "poseidon")
  else if b = SegmentArena then .ok (lit "segment_arena")
  else .error (.marshalBuiltin b)

/-- The method `Builtin.UnmarshalJSON`: the value stored through the receiver,
or the error returned (the receiver is then left as it was). -/
def Builtin.UnmarshalJSON (data : Bytes) : Except Err Builtin :=
  match Unquote data with
  | none => .error .unquoteBuiltin
  | some builtinName =>
    if builtinName = lit "output" then .ok Output
    else if builtinName = lit "range_check" then .ok RangeCheck
    else if builtinName = lit "pedersen" then .ok Pedersen
    else if builtinName = lit "ecdsa" then .ok ECDSA
    else if builtinName = lit "keccak" then .ok Keccak
    else if builtinName = lit "bitwise" then .ok Bitwise
    else if builtinName = lit "ec_op" then .ok ECOP
    else if builtinName = lit "poseidon" then .ok Poseidon
    else if builtinName = lit "segment_arena" then .ok SegmentArena
    else .error (.unknownBuiltin builtinName)

/-- Whether a result is an error. -/
def isError {ε α : Type} : Except ε α → Bool
  | .error _ => true
  | .ok _ => false

/-- Whether a result is a success. -/
def isOk {ε α : Type} : Except ε α → Bool
  | .error _ => false
  | .ok _ => true

/-! ## `encoding/json`: string tokens -/

/-- The table `hex` of package json: the digit of a value below 16. -/
def hexDigit (n : Nat) : Nat := if n < 10 then 48 + n else 87 + n

/-- The table `htmlSafeSet`: the ASCII bytes copied into a JSON string as
they are. -/
def htmlSafe (b : Nat) : Bool :=
  32 ≤ b && b < 128 && b ≠ 34 && b ≠ 92 && b ≠ 60 && b ≠ 62 && b ≠ 38

/-- The escape written by `appendString` for an ASCII byte outside
`htmlSafeSet`. -/
def escapeByte (b : Nat) : Bytes :=
  if b = 92 || b = 34 then [92, b]
  else if b = 8 then [92, 98]
  else if b = 12 then [92, 102]
  else if b = 10 then [92, 110]
  else if b = 13 then [92, 114]
  else if b = 9 then [92, 116]
  else [92, 117, 48, 48, hexDigit (b / 16), hexDigit (b % 16)]

/-- The loop of `appendString` (with `escapeHTML`): the text written between
the quotes for the source bytes.  Each round consumes at least one byte. -/
def appendStringBody : Nat → Bytes → Bytes
  | 0, _ => []
  | _ + 1, [] => []
  | fuel + 1, b :: t =>
    if b < runeSelf then
      if htmlSafe b then b :: appendStringBody fuel t
      else escapeByte b ++ appendStringBody fuel t
    else
      let (c, size) := decodeRune ((b :: t).take 4)
      if c = runeError && size = 1 then
        [92, 117, 102, 102, 102, 100] ++ appendStringBody fuel t
      else if c = 8232 || c = 8233 then
        [92, 117, 50, 48, 50, hexDigit (c % 16)] ++ appendStringBody fuel ((b :: t).drop size)
      else (b :: t).take size ++ appendStringBody fuel ((b :: t).drop size)

/-- The JSON string token `encoding/json` writes for a string: the function
`appendString`. -/
def jsonQuote (s : Bytes) : Bytes :=
  34 :: appendStringBody s.length s ++ [34]

/-! ## JSON numbers and `float64` -/

/-- A JSON number literal read as a decimal: the value is `mant * 10 ^ exp10`,
negated when `neg`. -/
structure NumLit where
  /-- Whether the literal starts with a minus sign. -/
  neg : Bool
  /-- The digits of the integer and fraction parts, as one number. -/
  mant : Nat
  /-- The exponent, less the number of fraction digits. -/
  exp10 : Int
  deriving DecidableEq, Repr

/-- Whether a byte is a decimal digit. -/
def isDigit (b : Nat) : Bool := 48 ≤ b && b ≤ 57

/-- The number written by a run of decimal digits. -/
def digitsVal (ds : Bytes) : Nat := ds.foldl (fun acc b => acc * 10 + (b - 48)) 0

/-- Reading of a number literal of the JSON grammar
(`-? int frac? exp?`); `none` when the text is not such a literal. -/
def parseNumLit (raw : Bytes) : Option NumLit :=
  let (neg, r1) := match raw with
    | 45 :: t => (true, t)
    | _ => (false, raw)
  let (ip, r2) := r1.span isDigit
  if ip = [] then none
  else if ip.length > 1 && ip.head? = some 48 then none
  else
    let (fp, r3, okf) := match r2 with
      | 46 :: t => let (d, r) := t.span isDigit; (d, r, !d.isEmpty)
      | _ => ([], r2, true)
    if !okf then none
    else
      match r3 with
      | [] => some ⟨neg, digitsVal (ip ++ fp), - (fp.length : Int)⟩
      | e :: t =>
        if e = 101 || e = 69 then
          let (sgn, t2) := match t with
            | 43 :: u => (false, u)
            | 45 :: u => (true, u)
            | _ => (false, t)
          let (ed, r4) := t2.span isDigit
          if ed.isEmpty || !r4.isEmpty then none
          else
            let ev : Int := digitsVal ed
            some ⟨neg, digitsVal (ip ++ fp), (if sgn then -ev else ev) - (fp.length : Int)⟩
        else none

/-- A finite `float64` value: `man * 2 ^ exp`, negated when `neg`. -/
structure F64 where
  /-- The sign bit. -/
  neg : Bool
  /-- The significand, at most `2 ^ 53`. -/
  man : Nat
  /-- The binary exponent of the last bit of the significand. -/
  exp : Int
  deriving DecidableEq, Repr

/-- Position of the highest set bit, by halving. -/
def log2Fuel : Nat → Nat → Nat
  | 0, _ => 0
  | fuel + 1, n => if n ≥ 2 then log2Fuel fuel (n / 2) + 1 else 0

/-- The largest `k` with `2 ^ k ≤ n`, for `n` positive. -/
def floorLog2 (n : Nat) : Nat := log2Fuel n n

/-- The function `strconv.ParseFloat(s, 64)` on a number literal: the nearest
`float64`, ties to the even significand; `none` is the range error for a value
that rounds beyond the largest finite `float64`. -/
def roundToF64 (l : NumLit) : Option F64 :=
  if l.mant = 0 then some ⟨l.neg, 0, 0⟩
  else
    -- the value as the fraction `N / D`
    let N : Nat := if l.exp10 ≥ 0 then l.mant * 10 ^ l.exp10.toNat else l.mant
    let D : Nat := if l.exp10 ≥ 0 then 1 else 10 ^ (-l.exp10).toNat
    -- `e2` is the largest integer with `2 ^ e2 ≤ N / D`
    let c : Int := (floorLog2 N : Int) - (floorLog2 D : Int)
    let ge : Bool := if c ≥ 0 then D * 2 ^ c.toNat ≤ N else D ≤ N * 2 ^ (-c).toNat
    let e2 : Int := if ge then c else c - 1
    -- exponent of the last bit: 53 bits of significand, subnormals below
    let q : Int := max (e2 - 52) (-1074)
    let A : Nat := if q ≥ 0 then N else N * 2 ^ (-q).toNat
    let B : Nat := if q ≥ 0 then D * 2 ^ q.toNat else D
    let m0 := A / B
    let r := A % B
    let m := if 2 * r > B || (2 * r = B && m0 % 2 = 1) then m0 + 1 else m0
    if q > 971 || (q = 971 && m ≥ 2 ^ 53) then none
    else some ⟨l.neg, m, q⟩

/-- The integer part of the magnitude of a `float64`. -/
def truncF64 (f : F64) : Nat :=
  if f.exp ≥ 0 then f.man * 2 ^ f.exp.toNat else f.man / 2 ^ (-f.exp).toNat

/-- The conversion `uint64(f)` of Go: the fraction is discarded.  When the
truncated value is not a `uint64` the language leaves the result to the
implementation: `outOfRange` is what the platform yields then. -/
def float64ToUint64 (outOfRange : F64 → Nat) (f : F64) : Nat :=
  let t := truncF64 f
  if f.neg then (if t = 0 then 0 else outOfRange f % 2 ^ 64)
  else if t < 2 ^ 64 then t else outOfRange f % 2 ^ 64

/-- The digit loop of `strconv.AppendUint` in base 10. -/
def natDigitsAux : Nat → Nat → Bytes → Bytes
  | 0, _, acc => acc
  | fuel + 1, n, acc =>
    if n < 10 then (48 + n) :: acc else natDigitsAux fuel (n / 10) ((48 + n % 10) :: acc)

/-- The literal `encoding/json` writes for a `uint64`. -/
def natDigits (n : Nat) : Bytes := natDigitsAux (n + 1) n []

/-! ## JSON documents -/

/-- A JSON value as `encoding/json` scans it.  A number keeps the text of its
literal; a string is held decoded, its token being the one `appendString`
writes (`jsonQuote`); an object is the sequence of its members in the
order of the document. -/
inductive Json where
  | null
  | bool (b : Bool)
  | num (raw : Bytes)
  | str (s : Bytes)
  | arr (xs : List Json)
  | obj (kvs : List (Bytes × Json))
  deriving Repr

/-- A value of type `interface{}` as `json.Unmarshal` builds it: `nil`, `bool`,
`float64`, `string`, `[]interface{}` or `map[string]interface{}`. -/
inductive Iface where
  | nil
  | bool (b : Bool)
  | float (f : F64)
  | str (s : Bytes)
  | arr (xs : List Iface)
  | map (kvs : List (Bytes × Iface))
  deriving Repr

/-- Assignment `m[key] = v` on a map held as a list of entries. -/
def mapInsert (key : Bytes) (v : Iface) : List (Bytes × Iface) → List (Bytes × Iface)
  | [] => [(key, v)]
  | (k, w) :: t => if k = key then (k, v) :: t else (k, w) :: mapInsert key v t

mutual
/-- The method `valueInterface` of the decoder: the `interface{}` value of a
JSON value, and whether a number out of the range of `float64` was met (the
saved `UnmarshalTypeError`; the number is then left `nil`). -/
def valueInterface : Json → Iface × Bool
  | .null => (.nil, false)
  | .bool b => (.bool b, false)
  | .num raw =>
    match (parseNumLit raw).bind roundToF64 with
    | some f => (.float f, false)
    | none => (.nil, true)
  | .str s => (.str s, false)
  | .arr xs => let r := arrayInterface xs; (.arr r.1, r.2)
  | .obj kvs => let r := objectInterface kvs; (.map r.1, r.2)
/-- The method `arrayInterface`. -/
def arrayInterface : List Json → List Iface × Bool
  | [] => ([], false)
  | x :: t =>
    let r := valueInterface x
    let rs := arrayInterface t
    (r.1 :: rs.1, r.2 || rs.2)
/-- The method `objectInterface`: members are stored in order, a repeated key
replacing the earlier entry. -/
def objectInterface : List (Bytes × Json) → List (Bytes × Iface) × Bool
  | [] => ([], false)
  | (k, x) :: t =>
    let r := valueInterface x
    let rs := objectInterface t
    (rs.1.foldl (fun m e => mapInsert e.1 e.2 m) [(k, r.1)], r.2 || rs.2)
end

/-- A Go slice: `none` is the nil slice. -/
abbrev Slice (α : Type) := Option (List α)

/-- How a call ends: it returns `nil`, returns an error, or the goroutine
panics (an index out of range). -/
inductive Outcome where
  | ok
  | err (e : Err)
  | panic
  deriving DecidableEq, Repr

/-- What this file takes from outside: the field element type `f.Element` of
gnark-crypto with its `UnmarshalJSON`, the type `Hint` of the package with
its JSON decoding, and the two platform-dependent library routines. -/
structure Env where
  /-- The type `f.Element`. -/
  Felt : Type
  /-- The zero value of `f.Element`. -/
  feltZero : Felt
  /-- The method `UnmarshalJSON` of `f.Element` applied to the text of a JSON value. -/
  feltUnmarshal : Json → Except Err Felt
  /-- The type `Hint`. -/
  Hint : Type
  /-- The zero value of `Hint`. -/
  hintZero : Hint
  /-- Decoding one element of `[]Hint` with `json.Unmarshal` from the text
  `json.Marshal` writes for an `interface{}` value. -/
  hintUnmarshal : Iface → Except Err Hint
  /-- The result of `uint64(f)` when `f` truncates to no `uint64`. -/
  outOfRange : F64 → Nat
  /-- The function `base64.StdEncoding.Decode`. -/
  base64Decode : Bytes → Except Err Bytes

/-! ## `Hints` -/

set_option linter.dupNamespace false in
/-- The struct `Hints`. -/
structure Hints (env : Env) where
  /-- The field `Index uint64`. -/
  Index : Nat
  /-- The field `Hints []Hint`. -/
  Hints : Slice env.Hint

/-- The call `json.Unmarshal(data, &rawHints)` on the nil `[]interface{}`:
the slice left in `rawHints` and the error returned.  `data` is `none` for
bytes that are not JSON. -/
def unmarshalRawHints (data : Option Json) : Slice Iface × Option Err :=
  match data with
  | none => (none, some .syntaxErr)
  | some .null => (none, none)
  | some (.arr xs) =>
    let r := arrayInterface xs
    (some r.1, if r.2 then some .typeErr else none)
  | some _ => (none, some .typeErr)

/-- The calls `json.Marshal(rawHints[1])`, which cannot fail on a value built
by `json.Unmarshal`, and `json.Unmarshal(rest, &h)` on the nil `[]Hint`:
`null` leaves the nil slice, an array is decoded element by element, any
other value is a type error. -/
def unmarshalHintList (env : Env) (v : Iface) : Except Err (Slice env.Hint) :=
  match v with
  | .nil => .ok none
  | .arr xs => (xs.mapM env.hintUnmarshal).map some
  | _ => .error .typeErr

/-- The method `Hints.UnmarshalJSON`: the receiver after the call and how the
call ends.  Indexing `rawHints` beyond its length panics. -/
def Hints.UnmarshalJSON (env : Env) (hints : Starknet.Hints env) (data : Option Json) :
    Starknet.Hints env × Outcome :=
  match unmarshalRawHints data with
  | (_, some e) => (hints, .err e)
  | (rawHints, none) =>
    match rawHints.getD [] with
    | [] => (hints, .panic)
    | x0 :: rest =>
      match x0 with
      | .float index =>
        let hints1 : Starknet.Hints env := { hints with Index := float64ToUint64 env.outOfRange index }
        match rest with
        | [] => (hints1, .panic)
        | x1 :: _ =>
          match unmarshalHintList env x1 with
          | .error e => (hints1, .err e)
          | .ok h => ({ hints1 with Hints := h }, .ok)
      | _ => (hints, .err .hintIndex)

/-- Encoding of a `[]Hint` by `json.Marshal`, given the encoding of one `Hint`:
`null` for the nil slice, else the array of the elements. -/
def marshalHintList (env : Env) (hintMarshal : env.Hint → Except Err Json)
    (hs : Slice env.Hint) : Except Err Json :=
  match hs with
  | none => .ok .null
  | some l => (l.mapM hintMarshal).map Json.arr

/-- The method `Hints.MarshalJSON`: the two-element array of the index, written
as an integer literal, and the hint list. -/
def Hints.MarshalJSON (env : Env) (hintMarshal : env.Hint → Except Err Json)
    (hints : Starknet.Hints env) : Except Err Json :=
  match marshalHintList env hintMarshal hints.Hints with
  | .error e => .error e
  | .ok hs => .ok (.arr [.num (natDigits hints.Index), hs])

/-! ## `encoding/json`: decoding into the structs of the package -/

mutual
/-- The text of a JSON value, in compact form: what a method `UnmarshalJSON`
receives for it. -/
def render : Json → Bytes
  | .null => lit "null"
  | .bool true => lit "true"
  | .bool false => lit "false"
  | .num raw => raw
  | .str s => jsonQuote s
  | .arr xs => 91 :: renderList xs ++ [93]
  | .obj kvs => 123 :: renderMembers kvs ++ [125]
/-- The elements of an array, separated by commas. -/
def renderList : List Json → Bytes
  | [] => []
  | x :: t => render x ++ (if t.isEmpty then [] else [44]) ++ renderList t
/-- The members of an object, separated by commas. -/
def renderMembers : List (Bytes × Json) → Bytes
  | [] => []
  | (k, x) :: t =>
    jsonQuote k ++ 58 :: render x ++ (if t.isEmpty then [] else [44]) ++ renderMembers t
end

/-- What ends a decode before the end of the document: an error returned by a
method `UnmarshalJSON`, or a panic. -/
inductive Stop where
  | fatal (e : Err)
  | panic
  deriving DecidableEq, Repr

/-- The state of a decode after a value: the destination, the field
`savedError` of the decoder, and whether the decode stopped there. -/
structure Dec (α : Type) where
  /-- The destination after the value. -/
  val : α
  /-- The first type error met, kept while decoding goes on. -/
  saved : Option Err
  /-- The error or panic that stopped the decode. -/
  stop : Option Stop

/-- The method `saveError`: only the first error is kept. -/
def saveError (saved : Option Err) (e : Err) : Option Err :=
  match saved with
  | some e0 => some e0
  | none => some e

/-- The function `foldRune` on the runes that matter for ASCII names: the long
s and the Kelvin sign fold to `S` and `K`; any other rune beyond ASCII folds to a
rune beyond ASCII and is kept as it is. -/
def foldRune (r : Nat) : Nat := if r = 383 then 83 else if r = 8490 then 75 else r

/-- The function `appendFoldedName`: the key with letters in upper case. -/
def foldName : Nat → Bytes → Bytes
  | 0, _ => []
  | _ + 1, [] => []
  | fuel + 1, c :: t =>
    if c < runeSelf then
      (if 97 ≤ c && c ≤ 122 then c - 32 else c) :: foldName fuel t
    else
      let (r, n) := decodeRune (c :: t)
      encodeRune (foldRune r) ++ foldName fuel ((c :: t).drop n)

/-- Whether a key of the document names the struct field tagged `name`: exact
or case-folded equality. -/
def keyIs (name key : Bytes) : Bool :=
  key = name || foldName key.length key = foldName name.length name

/-- The loop of the method `array` of the decoder on a slice: element `i` is
decoded into the element already there, or into a fresh zero value past the
length (a slice is its elements up to the length; spare capacity is taken
as zeroed).  `old` is what remains of the slice, `acc` the elements decoded. -/
def decodeArrayLoop {α : Type} (zero : α) (dec : α → Json → Option Err → Dec α) :
    List Json → List α → List α → Option Err → Dec (List α)
  | [], _, acc, saved => ⟨acc, saved, none⟩
  | x :: xs, old, acc, saved =>
    let r := dec (old.headD zero) x saved
    match r.stop with
    | some st => ⟨acc ++ r.val :: old.tail, r.saved, some st⟩
    | none => decodeArrayLoop zero dec xs old.tail (acc ++ [r.val]) r.saved

/-- Decoding a JSON value into a slice whose elements are not bytes: `null`
sets the nil slice, an array is decoded element by element and the slice cut
to the elements read, any other value is a saved type error. -/
def decodeSlice {α : Type} (zero : α) (dec : α → Json → Option Err → Dec α)
    (cur : Slice α) (j : Json) (saved : Option Err) : Dec (Slice α) :=
  match j with
  | .null => ⟨none, saved, none⟩
  | .arr xs =>
    let r := decodeArrayLoop zero dec xs (cur.getD []) [] saved
    ⟨some r.val, r.saved, r.stop⟩
  | _ => ⟨cur, saveError saved .typeErr, none⟩

/-- The loop of the method `object` of the decoder on a struct: the members
are taken in order, `step` decoding one member into the struct. -/
def decodeMembers {σ : Type} (step : σ → Bytes → Json → Option Err → Dec σ) :
    List (Bytes × Json) → σ → Option Err → Dec σ
  | [], v, saved => ⟨v, saved, none⟩
  | (k, x) :: t, v, saved =>
    let r := step v k x saved
    match r.stop with
    | some _ => r
    | none => decodeMembers step t r.val r.saved

/-- Decoding a JSON value into a struct: `null` changes nothing, a value that
is not an object is a saved type error. -/
def decodeStruct {σ : Type} (step : σ → Bytes → Json → Option Err → Dec σ)
    (cur : σ) (j : Json) (saved : Option Err) : Dec σ :=
  match j with
  | .obj kvs => decodeMembers step kvs cur saved
  | .null => ⟨cur, saved, none⟩
  | _ => ⟨cur, saveError saved .typeErr, none⟩

/-- Decoding a JSON value into a `string` field. -/
def decodeString (cur : Bytes) (j : Json) (saved : Option Err) : Dec Bytes :=
  match j with
  | .str s => ⟨s, saved, none⟩
  | .null => ⟨cur, saved, none⟩
  | _ => ⟨cur, saveError saved .typeErr, none⟩

/-! ## `EntryPointInfo`, `EntryPointByType`, `Program` -/

/-- The struct `EntryPointInfo`. -/
structure EntryPointInfo (env : Env) where
  /-- The field tagged `selector`. -/
  Selector : env.Felt
  /-- The field tagged `offset`. -/
  Offset : env.Felt
  /-- The field tagged `builtins`. -/
  Builtins : Slice Builtin

/-- The struct `EntryPointByType`. -/
structure EntryPointByType (env : Env) where
  /-- The field tagged `EXTERNAL`. -/
  External : Slice (EntryPointInfo env)
  /-- The field tagged `L1_HANDLER`. -/
  L1Handler : Slice (EntryPointInfo env)
  /-- The field tagged `CONSTRUCTOR`. -/
  Constructor : Slice (EntryPointInfo env)

/-- The struct `Program`. -/
structure Program (env : Env) where
  /-- The field tagged `bytecode`. -/
  Bytecode : Slice env.Felt
  /-- The field tagged `compiler_version`. -/
  CompilerVersion : Bytes
  /-- The field tagged `entry_points_by_type`. -/
  EntryPoints : EntryPointByType env
  /-- The field tagged `hints`; the tag `validate:"required"` is not read by
  `encoding/json`. -/
  Hints : Slice (Hints env)

/-- The zero value of `EntryPointInfo`. -/
def EntryPointInfo.zero (env : Env) : EntryPointInfo env := ⟨env.feltZero, env.feltZero, none⟩

/-- The zero value of `Hints`. -/
def Hints.zero (env : Env) : Starknet.Hints env := ⟨0, none⟩

/-- The zero value of `Program`, what `var program Program` declares. -/
def Program.zero (env : Env) : Program env := ⟨none, [], ⟨none, none, none⟩, none⟩

/-- Decoding a JSON value into an `f.Element`: its `UnmarshalJSON` gets the
text of the value, whatever its kind; an error stops the decode. -/
def decodeFelt (env : Env) (cur : env.Felt) (j : Json) (saved : Option Err) : Dec env.Felt :=
  match env.feltUnmarshal j with
  | .ok v => ⟨v, saved, none⟩
  | .error e => ⟨cur, saved, some (.fatal e)⟩

/-- Decoding a JSON value into a `Builtin`: `Builtin.UnmarshalJSON` gets the
text of the value, whatever its kind; an error stops the decode. -/
def decodeBuiltin (cur : Builtin) (j : Json) (saved : Option Err) : Dec Builtin :=
  match Builtin.UnmarshalJSON (render j) with
  | .ok v => ⟨v, saved, none⟩
  | .error e => ⟨cur, saved, some (.fatal e)⟩

/-- Decoding a JSON value into a `[]Builtin`.  The element kind is `uint8`, so
a JSON string is taken as base64 text for the bytes of the slice; the other
values are decoded as for any slice. -/
def decodeBuiltins (env : Env) (cur : Slice Builtin) (j : Json) (saved : Option Err) :
    Dec (Slice Builtin) :=
  match j with
  | .str s =>
    match env.base64Decode s with
    | .ok b => ⟨some b, saved, none⟩
    | .error e => ⟨cur, saveError saved e, none⟩
  | _ => decodeSlice (0 : Builtin) decodeBuiltin cur j saved

/-- Decoding a JSON value into a `Hints`: `Hints.UnmarshalJSON` gets the text
of the value, whatever its kind; an error or a panic stops the decode. -/
def decodeHints (env : Env) (cur : Starknet.Hints env) (j : Json) (saved : Option Err) :
    Dec (Starknet.Hints env) :=
  match Hints.UnmarshalJSON env cur (some j) with
  | (h, .ok) => ⟨h, saved, none⟩
  | (h, .err e) => ⟨h, saved, some (.fatal e)⟩
  | (h, .panic) => ⟨h, saved, some .panic⟩

/-- One member of an object decoded into an `EntryPointInfo`. -/
def stepEntryPointInfo (env : Env) (v : EntryPointInfo env) (key : Bytes) (x : Json)
    (saved : Option Err) : Dec (EntryPointInfo env) :=
  if keyIs (lit "selector") key then
    let r := decodeFelt env v.Selector x saved
    ⟨{ v with Selector := r.val }, r.saved, r.stop⟩
  else if keyIs (lit "offset") key then
    let r := decodeFelt env v.Offset x saved
    ⟨{ v with Offset := r.val }, r.saved, r.stop⟩
  else if keyIs (lit "builtins") key then
    let r := decodeBuiltins env v.Builtins x saved
    ⟨{ v with Builtins := r.val }, r.saved, r.stop⟩
  else ⟨v, saved, none⟩

/-- Decoding a JSON value into an `EntryPointInfo`. -/
def decodeEntryPointInfo (env : Env) (cur : EntryPointInfo env) (j : Json)
    (saved : Option Err) : Dec (EntryPointInfo env) :=
  decodeStruct (stepEntryPointInfo env) cur j saved

/-- Decoding a JSON value into a `[]EntryPointInfo`. -/
def decodeEntryPoints (env : Env) (cur : Slice (EntryPointInfo env)) (j : Json)
    (saved : Option Err) : Dec (Slice (EntryPointInfo env)) :=
  decodeSlice (EntryPointInfo.zero env) (decodeEntryPointInfo env) cur j saved

/-- One member of an object decoded into an `EntryPointByType`. -/
def stepEntryPointByType (env : Env) (v : EntryPointByType env) (key : Bytes) (x : Json)
    (saved : Option Err) : Dec (EntryPointByType env) :=
  if keyIs (lit "EXTERNAL") key then
    let r := decodeEntryPoints env v.External x saved
    ⟨{ v with External := r.val }, r.saved, r.stop⟩
  else if keyIs (lit "L1_HANDLER") key then
    let r := decodeEntryPoints env v.L1Handler x saved
    ⟨{ v with L1Handler := r.val }, r.saved, r.stop⟩
  else if keyIs (lit "CONSTRUCTOR") key then
    let r := decodeEntryPoints env v.Constructor x saved
    ⟨{ v with Constructor := r.val }, r.saved, r.stop⟩
  else ⟨v, saved, none⟩

/-- One member of an object decoded into a `Program`. -/
def stepProgram (env : Env) (v : Program env) (key : Bytes) (x : Json)
    (saved : Option Err) : Dec (Program env) :=
  if keyIs (lit "bytecode") key then
    let r := decodeSlice env.feltZero (decodeFelt env) v.Bytecode x saved
    ⟨{ v with Bytecode := r.val }, r.saved, r.stop⟩
  else if keyIs (lit "compiler_version") key then
    let r := decodeString v.CompilerVersion x saved
    ⟨{ v with CompilerVersion := r.val }, r.saved, r.stop⟩
  else if keyIs (lit "entry_points_by_type") key then
    let r := decodeStruct (stepEntryPointByType env) v.EntryPoints x saved
    ⟨{ v with EntryPoints := r.val }, r.saved, r.stop⟩
  else if keyIs (lit "hints") key then
    let r := decodeSlice (Hints.zero env) (decodeHints env) v.Hints x saved
    ⟨{ v with Hints := r.val }, r.saved, r.stop⟩
  else ⟨v, saved, none⟩

/-- The call `json.Unmarshal(content, &program)`: a syntax error leaves the
program untouched; else the document is decoded into it. -/
def unmarshalProgram (env : Env) (content : Option Json) (program : Program env) :
    Dec (Program env) :=
  match content with
  | none => ⟨program, none, some (.fatal .syntaxErr)⟩
  | some j => decodeStruct (stepProgram env) program j none

/-- What a loader returns: the pointer (`none` is `nil`) and the error, unless
the call panics. -/
inductive LoadResult (env : Env) where
  | ret (program : Option (Program env)) (err : Option Err)
  | panic

/-- The function `ProgramFromJSON`: the address of the local `program` is
returned next to whatever `json.Unmarshal` returns. -/
def ProgramFromJSON (env : Env) (content : Option Json) : LoadResult env :=
  let r := unmarshalProgram env content (Program.zero env)
  match r.stop with
  | some .panic => .panic
  | some (.fatal e) => .ret (some r.val) (some e)
  | none => .ret (some r.val) r.saved

/-- The function `ProgramFromFile`, `readFile` standing for `os.ReadFile`. -/
def ProgramFromFile (env : Env) (readFile : Bytes → Except Err (Option Json))
    (pathToFile : Bytes) : LoadResult env :=
  match readFile pathToFile with
  | .error e => .ret none (some e)
  | .ok content => ProgramFromJSON env content

/-- The pointer a loader returns, when it returns. -/
def LoadResult.program? {env : Env} : LoadResult env → Option (Program env)
  | .ret p _ => p
  | .panic => none

/-- The error a loader returns, when it returns one. -/
def LoadResult.err? {env : Env} : LoadResult env → Option Err
  | .ret _ e => e
  | .panic => none

/-- Whether the call panicked. -/
def LoadResult.panicked {env : Env} : LoadResult env → Bool
  | .ret _ _ => false
  | .panic => true

/-! ## A sample environment -/

/-- A sample decoder of field elements: a string or number of decimal digits. -/
def sampleFelt : Json → Except Err Nat
  | .str s => if s.all isDigit && !s.isEmpty then .ok (digitsVal s) else .error (.external 1)
  | .num raw => if raw.all isDigit && !raw.isEmpty then .ok (digitsVal raw) else .error (.external 1)
  | _ => .error (.external 1)

/-- A sample environment, for evaluating the codec on concrete documents: field
elements are natural numbers, a hint is its `interface{}` value shrunk to a
tag, an out-of-range conversion yields `2 ^ 63` as on amd64, and no text is
valid base64. -/
def sampleEnv : Env where
  Felt := Nat
  feltZero := 0
  feltUnmarshal := sampleFelt
  Hint := Nat
  hintZero := 0
  hintUnmarshal := fun v =>
    match v with
    | .map _ => .ok 1
    | _ => .error .typeErr
  outOfRange := fun _ => 2 ^ 63
  base64Decode := fun _ => .error (.external 2)

/-- The fields of a `Hints` of the sample environment. -/
def sampleHintsView (h : Starknet.Hints sampleEnv) : Nat × Option (List Nat) :=
  (h.Index, h.Hints)

/-- The document of the end-to-end scenario with the second builtin of the
external entry point replaced by `unknown`. -/
def unknownBuiltinDoc : Json :=
  .obj [(lit "bytecode", .arr [.str (lit "1"), .str (lit "2")]),
    (lit "compiler_version", .str (lit "2.1.0")),
    (lit "entry_points_by_type", .obj [
      (lit "EXTERNAL", .arr [.obj [(lit "selector", .str (lit "10")),
        (lit "offset", .str (lit "0")),
        (lit "builtins", .arr [.str (lit "range_check"), .str (lit "unknown")])]]),
      (lit "L1_HANDLER", .arr []),
      (lit "CONSTRUCTOR", .arr [])]),
    (lit "hints", .arr [.arr [.num (lit "0"), .arr []]])]

/-- The bytecode and compiler version of a program of the sample environment. -/
def sampleProgramView (p : Program sampleEnv) : Option (List Nat) × Bytes :=
  (p.Bytecode, p.CompilerVersion)

/-! ## Well-formed program documents -/

/-- The members of an entry point object of a document. -/
structure EntryDoc where
  /-- The value under `selector`. -/
  selector : Json
  /-- The value under `offset`. -/
  offset : Json
  /-- The elements of the array under `builtins`. -/
  builtins : List Json

/-- The entry point object. -/
def EntryDoc.toJson (e : EntryDoc) : Json :=
  .obj [(lit "selector", e.selector), (lit "offset", e.offset), (lit "builtins", .arr e.builtins)]

/-- A program document with its four members, the three buckets each an array of
entry point objects, `hints` an array. -/
def programDoc (bytecode : List Json) (version : Bytes) (ext l1 ctor : List EntryDoc)
    (hints : List Json) : Json :=
  .obj [(lit "bytecode", .arr bytecode),
    (lit "compiler_version", .str version),
    (lit "entry_points_by_type", .obj [
      (lit "EXTERNAL", .arr (ext.map EntryDoc.toJson)),
      (lit "L1_HANDLER", .arr (l1.map EntryDoc.toJson)),
      (lit "CONSTRUCTOR", .arr (ctor.map EntryDoc.toJson))]),
    (lit "hints", .arr hints)]

/-- Whether an element of a `builtins` array is one of the nine identifiers. -/
def isBuiltinToken : Json → Bool
  | .str s => decide (s ∈ builtinNames)
  | _ => false

/-- The variant `Builtin.UnmarshalJSON` stores for an element of a `builtins` array. -/
def builtinValue (x : Json) : Builtin :=
  match Builtin.UnmarshalJSON (render x) with
  | .ok b => b
  | .error _ => 0

/-- The value `UnmarshalJSON` of `f.Element` stores for a JSON value. -/
def feltValue (env : Env) (x : Json) : env.Felt :=
  match env.feltUnmarshal x with
  | .ok v => v
  | .error _ => env.feltZero

/-- What is well formed in an entry point object apart from the identifiers of
its builtins: the two field elements decode, and a number among the builtins
is a number literal. -/
def EntryDoc.otherwiseOk (env : Env) (e : EntryDoc) : Prop :=
  isOk (env.feltUnmarshal e.selector) = true ∧ isOk (env.feltUnmarshal e.offset) = true ∧
    ∀ raw, Json.num raw ∈ e.builtins → (parseNumLit raw).isSome = true

/-- All elements of all `builtins` arrays of a bucket are among the nine identifiers. -/
def allBuiltinTokens (es : List EntryDoc) : Prop :=
  ∀ e ∈ es, ∀ x ∈ e.builtins, isBuiltinToken x = true

/-- The `Builtins` fields of the entry points of a decoded bucket. -/
def bucketBuiltins {env : Env} (s : Slice (EntryPointInfo env)) : Option (List (Slice Builtin)) :=
  s.map (fun l => l.map (fun d => d.Builtins))

/-- The element-wise decode of the `builtins` arrays of a bucket of a document. -/
def docBuiltins (es : List EntryDoc) : List (Slice Builtin) :=
  es.map (fun e => some (e.builtins.map builtinValue))

/-- The bytes of the nine identifiers are lower-case letters or underscores. -/
def plainByte (b : Nat) : Bool := (97 ≤ b && b ≤ 122) || b = 95

/-- All bytes are lower-case letters or underscores. -/
def allPlain (s : Bytes) : Prop := ∀ b ∈ s, plainByte b = true

/-- The `EntryPointInfo` an entry point object decodes to when all its parts decode. -/
def EntryDoc.decoded (env : Env) (e : EntryDoc) : EntryPointInfo env :=
  ⟨feltValue env e.selector, feltValue env e.offset, some (e.builtins.map builtinValue)⟩

/-- The record `Hints.UnmarshalJSON` leaves in a fresh `Hints` for a JSON value. -/
def hintsValue (env : Env) (h : Json) : Starknet.Hints env :=
  (Hints.UnmarshalJSON env (Hints.zero env) (some h)).1

/-- The external entry point of the end-to-end scenario. -/
def sampleExternal : List EntryDoc :=
  [⟨.str (lit "10"), .str (lit "0"), [.str (lit "range_check"), .str (lit "pedersen")]⟩]

/-- The bytecode of the end-to-end scenario. -/
def sampleBytecode : List Json := [.str (lit "1"), .str (lit "2")]

/-- The hints of the end-to-end scenario. -/
def sampleHintsDoc : List Json := [.arr [.num (lit "0"), .arr []]]

/-- The document of the end-to-end scenario. -/
def endToEndDoc : Json :=
  programDoc sampleBytecode (lit "2.1.0") sampleExternal [] [] sampleHintsDoc

/-- The built-in `len` on a slice. -/
def sliceLen {α : Type} (s : Slice α) : Nat := (s.getD []).length

/-- A program document whose `entry_points_by_type` object has the key `EXTERNAL` only. -/
def externalOnlyDoc (bytecode : List Json) (version : Bytes) (ext : List EntryDoc)
    (hints : List Json) : Json :=
  .obj [(lit "bytecode", .arr bytecode),
    (lit "compiler_version", .str version),
    (lit "entry_points_by_type", .obj [(lit "EXTERNAL", .arr (ext.map EntryDoc.toJson))]),
    (lit "hints", .arr hints)]

/-- A program document without the key `compiler_version`. -/
def noVersionDoc (bytecode : List Json) (ext l1 ctor : List EntryDoc) (hints : List Json) :
    Json :=
  .obj [(lit "bytecode", .arr bytecode),
    (lit "entry_points_by_type", .obj [
      (lit "EXTERNAL", .arr (ext.map EntryDoc.toJson)),
      (lit "L1_HANDLER", .arr (l1.map EntryDoc.toJson)),
      (lit "CONSTRUCTOR", .arr (ctor.map EntryDoc.toJson))]),
    (lit "hints", .arr hints)]

/-- A number literal that denotes the natural number `n`: no minus sign, and
`mant * 10 ^ exp10 = n`. -/
def NumLit.denotes (l : NumLit) (n : Nat) : Prop :=
  l.neg = false ∧
    (if l.exp10 ≥ 0 then l.mant * 10 ^ l.exp10.toNat = n
     else l.mant = n * 10 ^ (-l.exp10).toNat)

/-! ## `encoding/json`: the scanner on the text a `MarshalJSON` returns -/

/-- Skipping of the JSON white space: space, tab, carriage return, line feed. -/
def skipSpace : Bytes → Bytes
  | [] => []
  | c :: t => if c = 32 || c = 9 || c = 13 || c = 10 then skipSpace t else c :: t

/-- The bytes a number literal is made of. -/
def isNumChar (c : Nat) : Bool :=
  isDigit c || c = 45 || c = 43 || c = 46 || c = 101 || c = 69

/-- Scanning and unquoting of a JSON string after its opening quote: the decoded
bytes and what follows the closing quote.  An escaped surrogate pair is joined,
a lone surrogate and an invalid byte become the replacement rune. -/
def scanString : Nat → Bytes → Bytes → Option (Bytes × Bytes)
  | 0, _, _ => none
  | fuel + 1, inp, acc =>
    match inp with
    | [] => none
    | c :: rest =>
      if c = 34 then some (acc, rest)
      else if c = 92 then
        match rest with
        | [] => none
        | e :: rest2 =>
          if e = 34 || e = 92 || e = 47 then scanString fuel rest2 (acc ++ [e])
          else if e = 98 then scanString fuel rest2 (acc ++ [8])
          else if e = 102 then scanString fuel rest2 (acc ++ [12])
          else if e = 110 then scanString fuel rest2 (acc ++ [10])
          else if e = 114 then scanString fuel rest2 (acc ++ [13])
          else if e = 116 then scanString fuel rest2 (acc ++ [9])
          else if e = 117 then
            match readHex 4 0 rest2 with
            | none => none
            | some (rr, rest3) =>
              if 55296 ≤ rr && rr < 57344 then
                match rest3 with
                | 92 :: 117 :: rest4 =>
                  match readHex 4 0 rest4 with
                  | none => none
                  | some (rr1, rest5) =>
                    if rr < 56320 && 56320 ≤ rr1 && rr1 < 57344 then
                      scanString fuel rest5
                        (acc ++ encodeRune ((rr - 55296) * 1024 + (rr1 - 56320) + 65536))
                    else scanString fuel rest3 (acc ++ encodeRune runeError)
                | _ => scanString fuel rest3 (acc ++ encodeRune runeError)
              else scanString fuel rest3 (acc ++ encodeRune rr)
          else none
      else if c < 32 then none
      else if c < runeSelf then scanString fuel rest (acc ++ [c])
      else
        let (r, size) := decodeRune inp
        scanString fuel (inp.drop size) (acc ++ encodeRune r)

mutual
/-- Scanning of one JSON value, white space before it skipped: the value and
the rest of the text.  `none` is a syntax error. -/
def scanValue : Nat → Bytes → Option (Json × Bytes)
  | 0, _ => none
  | fuel + 1, inp =>
    match skipSpace inp with
    | [] => none
    | c :: rest =>
      if c = 123 then
        match skipSpace rest with
        | 125 :: r => some (.obj [], r)
        | r => scanMembers fuel r []
      else if c = 91 then
        match skipSpace rest with
        | 93 :: r => some (.arr [], r)
        | r => scanElems fuel r []
      else if c = 34 then
        match scanString (rest.length + 1) rest [] with
        | some (s, r) => some (.str s, r)
        | none => none
      else if c = 116 then
        match rest with
        | 114 :: 117 :: 101 :: r => some (.bool true, r)
        | _ => none
      else if c = 102 then
        match rest with
        | 97 :: 108 :: 115 :: 101 :: r => some (.bool false, r)
        | _ => none
      else if c = 110 then
        match rest with
        | 117 :: 108 :: 108 :: r => some (.null, r)
        | _ => none
      else if c = 45 || isDigit c then
        let tok := (c :: rest).takeWhile isNumChar
        if (parseNumLit tok).isSome then some (.num tok, (c :: rest).dropWhile isNumChar)
        else none
      else none
/-- Scanning of the elements of an array up to its closing bracket. -/
def scanElems : Nat → Bytes → List Json → Option (Json × Bytes)
  | 0, _, _ => none
  | fuel + 1, inp, acc =>
    match scanValue fuel inp with
    | none => none
    | some (v, r) =>
      match skipSpace r with
      | 44 :: r2 => scanElems fuel r2 (acc ++ [v])
      | 93 :: r2 => some (.arr (acc ++ [v]), r2)
      | _ => none
/-- Scanning of the members of an object up to its closing brace. -/
def scanMembers : Nat → Bytes → List (Bytes × Json) → Option (Json × Bytes)
  | 0, _, _ => none
  | fuel + 1, inp, acc =>
    match skipSpace inp with
    | 34 :: r =>
      match scanString (r.length + 1) r [] with
      | none => none
      | some (k, r1) =>
        match skipSpace r1 with
        | 58 :: r2 =>
          match scanValue fuel r2 with
          | none => none
          | some (v, r3) =>
            match skipSpace r3 with
            | 44 :: r4 => scanMembers fuel r4 (acc ++ [(k, v)])
            | 125 :: r4 => some (.obj (acc ++ [(k, v)]), r4)
            | _ => none
        | _ => none
    | _ => none
end

/-- The JSON value a text denotes, when the whole text is one valid JSON value. -/
def scanJson (data : Bytes) : Option Json :=
  match scanValue (data.length + 1) data with
  | none => none
  | some (v, r) => if (skipSpace r).isEmpty then some v else none

/-! ## `encoding/json`: encoding the structs of the package -/

/-- The encoder of a value with a method `MarshalJSON`: an error of the method,
or a text that is not valid JSON, is a `MarshalerError`; a valid text is
spliced into the output. -/
def marshalerEncoder (r : Except Err Bytes) : Except Err Json :=
  match r with
  | .error _ => .error .marshalerErr
  | .ok data =>
    match scanJson data with
    | some j => .ok j
    | none => .error .marshalerErr

/-- Encoding of a `Builtin` by `json.Marshal`, through `Builtin.MarshalJSON`. -/
def marshalBuiltin (b : Builtin) : Except Err Json :=
  marshalerEncoder (Builtin.MarshalJSON b)

/-- Encoding of a slice by `json.Marshal`: `null` for the nil slice, else the
array of the encoded elements; the first error ends the encoding. -/
def marshalSlice {α : Type} (enc : α → Except Err Json) (s : Slice α) : Except Err Json :=
  match s with
  | none => .ok .null
  | some l =>
    match l.mapM enc with
    | .error e => .error e
    | .ok js => .ok (.arr js)

/-- Encoding of an `EntryPointInfo`: the fields in order of declaration,
`feltMarshal` being the encoding of an `f.Element`. -/
def marshalEntryPointInfo (env : Env) (feltMarshal : env.Felt → Except Err Json)
    (e : EntryPointInfo env) : Except Err Json :=
  match feltMarshal e.Selector with
  | .error x => .error x
  | .ok s =>
    match feltMarshal e.Offset with
    | .error x => .error x
    | .ok o =>
      match marshalSlice marshalBuiltin e.Builtins with
      | .error x => .error x
      | .ok b => .ok (.obj [(lit "selector", s), (lit "offset", o), (lit "builtins", b)])

/-- Encoding of an `EntryPointByType`. -/
def marshalEntryPointByType (env : Env) (feltMarshal : env.Felt → Except Err Json)
    (v : EntryPointByType env) : Except Err Json :=
  match marshalSlice (marshalEntryPointInfo env feltMarshal) v.External with
  | .error x => .error x
  | .ok a =>
    match marshalSlice (marshalEntryPointInfo env feltMarshal) v.L1Handler with
    | .error x => .error x
    | .ok b =>
      match marshalSlice (marshalEntryPointInfo env feltMarshal) v.Constructor with
      | .error x => .error x
      | .ok c => .ok (.obj [(lit "EXTERNAL", a), (lit "L1_HANDLER", b), (lit "CONSTRUCTOR", c)])

/-- Encoding of a `Hints` inside a `Program`, through `Hints.MarshalJSON`. -/
def marshalHints (env : Env) (hintMarshal : env.Hint → Except Err Json)
    (h : Starknet.Hints env) : Except Err Json :=
  match Hints.MarshalJSON env hintMarshal h with
  | .error _ => .error .marshalerErr
  | .ok j => .ok j

/-- The call `json.Marshal(program)`: the document written for a `Program`, or
the first error met. -/
def marshalProgram (env : Env) (feltMarshal : env.Felt → Except Err Json)
    (hintMarshal : env.Hint → Except Err Json) (p : Program env) : Except Err Json :=
  match marshalSlice feltMarshal p.Bytecode with
  | .error x => .error x
  | .ok bc =>
    match marshalEntryPointByType env feltMarshal p.EntryPoints with
    | .error x => .error x
    | .ok ep =>
      match marshalSlice (marshalHints env hintMarshal) p.Hints with
      | .error x => .error x
      | .ok hs =>
        .ok (.obj [(lit "bytecode", bc), (lit "compiler_version", .str p.CompilerVersion),
          (lit "entry_points_by_type", ep), (lit "hints", hs)])

/-- All the entry points of a program, over the three buckets. -/
def Program.entryPoints {env : Env} (p : Program env) : List (EntryPointInfo env) :=
  p.EntryPoints.External.getD [] ++ p.EntryPoints.L1Handler.getD [] ++
    p.EntryPoints.Constructor.getD []

/-- A sample encoder of field elements: the decimal digits as a string. -/
def sampleFeltMarshal (v : Nat) : Except Err Json := .ok (.str (natDigits v))

/-- A sample encoder of hints: an empty object. -/
def sampleHintMarshal (_ : Nat) : Except Err Json := .ok (.obj [])

/-- The program the document of the end-to-end scenario decodes to in the sample
environment. -/
def endToEndProgram : Program sampleEnv :=
  ⟨some [(1 : Nat), (2 : Nat)], lit "2.1.0",
    ⟨some [⟨(10 : Nat), (0 : Nat), some [RangeCheck, Pedersen]⟩], some [], some []⟩,
    some [⟨0, some []⟩]⟩

/-- The external entry point of that program. -/
def endToEndEntry : EntryPointInfo sampleEnv :=
  ⟨(10 : Nat), (0 : Nat), some [RangeCheck, Pedersen]⟩

/-- The entry point of `unknownBuiltinDoc`: its second builtin is `unknown`. -/
def unknownEntry : EntryDoc :=
  ⟨.str (lit "10"), .str (lit "0"), [.str (lit "range_check"), .str (lit "unknown")]⟩

/-- A second sample environment, which tells hints apart: a hint is an object,
kept as the number of its members. -/
def countingEnv : Env where
  Felt := Nat
  feltZero := 0
  feltUnmarshal := sampleFelt
  Hint := Nat
  hintZero := 0
  hintUnmarshal := fun v =>
    match v with
    | .map kvs => .ok kvs.length
    | _ => .error .typeErr
  outOfRange := fun _ => 2 ^ 63
  base64Decode := fun _ => .error (.external 2)

/-! ## Theorems -/

theorem allPlain_cons {b : Nat} {s : Bytes} :
    allPlain (b :: s) ↔ plainByte b = true ∧ allPlain s := by
  simp [allPlain]

theorem allPlain_append {s t : Bytes} :
    allPlain (s ++ t) ↔ allPlain s ∧ allPlain t := by
  simp only [allPlain, List.mem_append]
  constructor
  · intro h
    exact ⟨fun b hb => h b (Or.inl hb), fun b hb => h b (Or.inr hb)⟩
  · rintro ⟨h1, h2⟩ b (hb | hb)
    · exact h1 b hb
    · exact h2 b hb

theorem allPlain_of_initial {s t : Bytes} (h : s <+: t) (ht : allPlain t) : allPlain s := by
  obtain ⟨r, rfl⟩ := h
  exact (allPlain_append.mp ht).1

theorem builtinNames_plain : ∀ n ∈ builtinNames, ∀ b ∈ n, plainByte b = true := by
  decide

theorem firstInfo_spec {b sz lo hi : Nat} (h : firstInfo b = some (sz, lo, hi)) :
    128 ≤ lo ∧ hi ≤ 191 ∧
      ((sz = 2 ∧ 2 ≤ b % 32) ∨ (sz = 3 ∧ (1 ≤ b % 16 ∨ 160 ≤ lo)) ∨
        (sz = 4 ∧ (1 ≤ b % 8 ∨ 144 ≤ lo))) := by
  unfold firstInfo at h
  split_ifs at h <;> simp only [Option.some.injEq, Prod.mk.injEq] at h <;>
    obtain ⟨rfl, rfl, rfl⟩ := h <;> omega

/-- A rune decoded from a sequence led by a non-ASCII byte is not ASCII. -/
theorem decodeRune_ge (s0 : Nat) (t : Bytes) (h : runeSelf ≤ s0) :
    runeSelf ≤ (decodeRune (s0 :: t)).1 := by
  have hE : runeSelf ≤ runeError := by decide
  unfold decodeRune
  cases hf : firstInfo s0 with
  | none =>
    have : ¬ s0 < runeSelf := by omega
    simp only [hf, this, if_false]; exact hE
  | some p =>
    obtain ⟨sz, lo, hi⟩ := p
    obtain ⟨hlo, hhi, hsz⟩ := firstInfo_spec hf
    simp only [hf]
    simp only [runeSelf] at *
    rcases hsz with ⟨rfl, hb⟩ | ⟨rfl, hb⟩ | ⟨rfl, hb⟩ <;>
      rcases t with _ | ⟨s1, _ | ⟨s2, _ | ⟨s3, t3⟩⟩⟩ <;>
      simp only [isCont, List.length_nil, List.length_cons, Bool.or_eq_true, decide_eq_true_eq,
        Bool.not_eq_true', Bool.and_eq_false_imp, decide_eq_false_iff_not] <;>
      split_ifs <;>
      first
      | exact hE
      | (simp only; omega)

/-- The encoding of a non-ASCII rune starts with a byte that is not plain. -/
theorem encodeRune_head (r : Nat) (h : runeSelf ≤ r) :
    ∃ x xs, encodeRune r = x :: xs ∧ plainByte x = false := by
  simp only [runeSelf] at h
  unfold encodeRune
  split_ifs with h1 h2 h3 h4
  · omega
  · exact ⟨_, _, rfl, by simp [plainByte]; omega⟩
  · exact ⟨_, _, rfl, by decide⟩
  · exact ⟨_, _, rfl, by simp [plainByte]; omega⟩
  · exact ⟨_, _, rfl, by simp [plainByte]; omega⟩

theorem appendValue_extends (buf : Bytes) (r : Nat) (mb : Bool) :
    buf <+: appendValue buf r mb := by
  unfold appendValue
  split_ifs <;> exact List.prefix_append _ _

/-- One round of the loop of `unquote` on a double-quoted string. -/
theorem unquoteLoop_step (n c : Nat) (rest buf : Bytes) :
    unquoteLoop 34 (n + 1) (c :: rest) buf =
      if c = 34 then some (buf, rest)
      else match unquoteChar (c :: rest) 34 with
        | none => none
        | some (r, mb, rem) =>
          if c = 10 then none else unquoteLoop 34 n rem (appendValue buf r mb) := by
  simp only [unquoteLoop]
  split_ifs <;> first | rfl | (split <;> simp_all)

/-- The loop of `unquote` only appends to its buffer. -/
theorem unquoteLoop_extends :
    ∀ (fuel : Nat) (inp buf out rem : Bytes),
      unquoteLoop 34 fuel inp buf = some (out, rem) → buf <+: out := by
  intro fuel
  induction fuel with
  | zero => intro inp buf out rem h; simp [unquoteLoop] at h
  | succ n ih =>
    intro inp buf out rem h
    cases inp with
    | nil => simp [unquoteLoop] at h
    | cons c rest =>
      rw [unquoteLoop_step] at h
      by_cases hc : c = 34
      · simp only [hc, if_true, Option.some.injEq, Prod.mk.injEq] at h
        exact h.1 ▸ List.prefix_refl _
      · simp only [hc, if_false] at h
        cases hu : unquoteChar (c :: rest) 34 with
        | none => simp [hu] at h
        | some p =>
          obtain ⟨r, mb, rem1⟩ := p
          simp only [hu] at h
          by_cases h10 : c = 10
          · simp [h10] at h
          · simp only [h10, if_false] at h
            exact (appendValue_extends _ _ _).trans (ih _ _ _ _ h)

theorem unhex_hexDigit : ∀ k < 16, unhex (hexDigit k) = some k := by decide

theorem readHex_u00 (x y : Nat) (rest : Bytes) (hx : x < 16) (hy : y < 16) :
    readHex 4 0 (48 :: 48 :: hexDigit x :: hexDigit y :: rest) = some (x * 16 + y, rest) := by
  have h0 : unhex 48 = some 0 := by decide
  simp only [readHex, h0, unhex_hexDigit x hx, unhex_hexDigit y hy]
  simp

/-- Reading back the escape `appendString` writes for an ASCII byte gives the byte. -/
theorem unquoteChar_escapeByte (b : Nat) (rest : Bytes) (hb : b < 128)
    (hs : htmlSafe b = false) :
    ∃ mb, unquoteChar (escapeByte b ++ rest) 34 = some (b, mb, rest) := by
  by_cases h1 : b = 92
  · subst h1; exact ⟨false, rfl⟩
  by_cases h2 : b = 34
  · subst h2; exact ⟨false, rfl⟩
  by_cases h3 : b = 8
  · subst h3; exact ⟨false, rfl⟩
  by_cases h4 : b = 12
  · subst h4; exact ⟨false, rfl⟩
  by_cases h5 : b = 10
  · subst h5; exact ⟨false, rfl⟩
  by_cases h6 : b = 13
  · subst h6; exact ⟨false, rfl⟩
  by_cases h7 : b = 9
  · subst h7; exact ⟨false, rfl⟩
  refine ⟨true, ?_⟩
  have hr := readHex_u00 (b / 16) (b % 16) rest (by omega) (by omega)
  have hbb : b / 16 * 16 + b % 16 = b := by omega
  rw [hbb] at hr
  have hv : validRune b = true := by
    simp only [validRune, Bool.or_eq_true, decide_eq_true_eq]; left; omega
  simp [escapeByte, h1, h2, h3, h4, h5, h6, h7, unquoteChar, runeSelf, hr, hv]

theorem unquoteChar_fffd (rest : Bytes) :
    unquoteChar ([92, 117, 102, 102, 102, 100] ++ rest) 34 = some (65533, true, rest) := rfl

theorem unquoteChar_2028 (rest : Bytes) :
    unquoteChar ([92, 117, 50, 48, 50, hexDigit (8232 % 16)] ++ rest) 34
      = some (8232, true, rest) := rfl

theorem unquoteChar_2029 (rest : Bytes) :
    unquoteChar ([92, 117, 50, 48, 50, hexDigit (8233 % 16)] ++ rest) 34
      = some (8233, true, rest) := rfl

theorem decodeRune_size_pos (s0 : Nat) (t : Bytes) : 1 ≤ (decodeRune (s0 :: t)).2 := by
  unfold decodeRune
  cases hf : firstInfo s0 with
  | none => simp only [hf]; split_ifs <;> exact Nat.le_refl 1
  | some p =>
    obtain ⟨sz, lo, hi⟩ := p
    simp only [hf]
    rcases t with _ | ⟨s1, _ | ⟨s2, _ | ⟨s3, t3⟩⟩⟩ <;>
      simp only [List.length_nil, List.length_cons] <;>
      split_ifs <;> simp

/-- A value that is not a plain byte leaves a byte that is not plain in the buffer. -/
theorem appendValue_not_plain (buf : Bytes) (r : Nat) (mb : Bool)
    (h1 : r < runeSelf → plainByte r = false) (h2 : runeSelf ≤ r → mb = true) :
    ¬ allPlain (appendValue buf r mb) := by
  intro hall
  unfold appendValue at hall
  by_cases hr : r < runeSelf
  · have hm : r % 256 = r := Nat.mod_eq_of_lt (by simp only [runeSelf] at hr; omega)
    simp only [hr, decide_True, Bool.true_or, if_true, hm] at hall
    have := (allPlain_append.mp hall).2 r (List.mem_singleton.mpr rfl)
    rw [h1 hr] at this
    exact Bool.false_ne_true this
  · have hmb := h2 (Nat.le_of_not_lt hr)
    simp only [hr, hmb, decide_False, Bool.not_true, Bool.or_self, if_false] at hall
    obtain ⟨x, xs, he, hx⟩ := encodeRune_head r (Nat.le_of_not_lt hr)
    have := (allPlain_append.mp hall).2 x (by rw [he]; exact List.mem_cons_self _ _)
    rw [hx] at this
    exact Bool.false_ne_true this

/-- A round of the loop that stores a value that is not plain cannot end in a plain text. -/
theorem unquoteLoop_not_plain (f : Nat) (inp buf out rem : Bytes) (r : Nat) (mb : Bool)
    (h1 : r < runeSelf → plainByte r = false) (h2 : runeSelf ≤ r → mb = true)
    (h : unquoteLoop 34 f inp (appendValue buf r mb) = some (out, rem)) :
    ¬ allPlain out := fun hall =>
  appendValue_not_plain buf r mb h1 h2 (allPlain_of_initial (unquoteLoop_extends _ _ _ _ _ h) hall)

theorem htmlSafe_of_plain {b : Nat} (h : plainByte b = true) : htmlSafe b = true := by
  simp only [plainByte, htmlSafe, Bool.or_eq_true, Bool.and_eq_true, decide_eq_true_eq,
    ne_eq, Bool.not_eq_true', decide_eq_false_iff_not] at *
  omega

theorem escapeByte_head (b : Nat) : ∃ xs, escapeByte b = 92 :: xs := by
  unfold escapeByte
  split_ifs <;> exact ⟨_, rfl⟩

theorem appendStringBody_succ (n b : Nat) (t : Bytes) :
    appendStringBody (n + 1) (b :: t) =
      if b < runeSelf then
        if htmlSafe b then b :: appendStringBody n t
        else escapeByte b ++ appendStringBody n t
      else
        if (decodeRune ((b :: t).take 4)).1 = runeError ∧ (decodeRune ((b :: t).take 4)).2 = 1 then
          [92, 117, 102, 102, 102, 100] ++ appendStringBody n t
        else if (decodeRune ((b :: t).take 4)).1 = 8232 ∨ (decodeRune ((b :: t).take 4)).1 = 8233 then
          [92, 117, 50, 48, 50, hexDigit ((decodeRune ((b :: t).take 4)).1 % 16)] ++
            appendStringBody n ((b :: t).drop (decodeRune ((b :: t).take 4)).2)
        else (b :: t).take (decodeRune ((b :: t).take 4)).2 ++
            appendStringBody n ((b :: t).drop (decodeRune ((b :: t).take 4)).2) := by
  simp only [appendStringBody, Bool.and_eq_true, Bool.or_eq_true, decide_eq_true_eq]

/-- The text `appendString` writes starts with a byte that is not plain unless
the source starts with a plain byte, which is then copied. -/
theorem appendStringBody_head (n b : Nat) (t : Bytes) :
    (htmlSafe b = true ∧ b < runeSelf ∧
        appendStringBody (n + 1) (b :: t) = b :: appendStringBody n t) ∨
      ∃ x xs, appendStringBody (n + 1) (b :: t) = x :: xs ∧ plainByte x = false := by
  rw [appendStringBody_succ]
  by_cases hb : b < runeSelf
  · by_cases hs : htmlSafe b = true
    · left; simp [hb, hs]
    · right
      obtain ⟨xs, hx⟩ := escapeByte_head b
      simp only [hb, hs, if_true, if_false, hx]
      exact ⟨92, _, rfl, by decide⟩
  · right
    simp only [hb, if_false]
    split_ifs with h1 h2
    · exact ⟨92, _, rfl, by decide⟩
    · exact ⟨92, _, rfl, by decide⟩
    · have hsz := decodeRune_size_pos b (t.take 3)
      have ht : (b :: t).take 4 = b :: t.take 3 := rfl
      rw [ht]
      obtain ⟨k, hk⟩ : ∃ k, (decodeRune (b :: t.take 3)).2 = k + 1 :=
        ⟨(decodeRune (b :: t.take 3)).2 - 1, by omega⟩
      rw [hk]
      refine ⟨b, _, rfl, ?_⟩
      simp only [runeSelf] at hb
      simp only [plainByte, Bool.or_eq_false_iff, Bool.and_eq_false_imp, decide_eq_true_eq,
        decide_eq_false_iff_not]
      omega

/-- A quoted text made of plain bytes only is the source itself. -/
theorem appendStringBody_plain :
    ∀ (n : Nat) (s : Bytes), s.length ≤ n → allPlain (appendStringBody n s) →
      appendStringBody n s = s := by
  intro n
  induction n with
  | zero =>
    intro s hl _
    have : s = [] := List.length_eq_zero.mp (Nat.le_zero.mp hl)
    subst this; rfl
  | succ n ih =>
    intro s hl hp
    cases s with
    | nil => rfl
    | cons b t =>
      rcases appendStringBody_head n b t with ⟨_, _, he⟩ | ⟨x, xs, he, hx⟩
      · rw [he] at hp ⊢
        have hl2 : t.length ≤ n := by simpa using hl
        rw [ih t hl2 (allPlain_cons.mp hp).2]
      · rw [he] at hp
        have := (allPlain_cons.mp hp).1
        rw [hx] at this
        exact absurd this Bool.false_ne_true

/-- A first round that decodes a value that is not plain rules out a plain result. -/
theorem unquoteLoop_first_not_plain (f c : Nat) (rest buf out rem rem1 : Bytes) (r : Nat)
    (mb : Bool) (hu : unquoteChar (c :: rest) 34 = some (r, mb, rem1))
    (h1 : r < runeSelf → plainByte r = false) (h2 : runeSelf ≤ r → mb = true)
    (h : unquoteLoop 34 f (c :: rest) buf = some (out, rem)) : ¬ allPlain out := by
  cases f with
  | zero => simp [unquoteLoop] at h
  | succ f =>
    rw [unquoteLoop_step] at h
    by_cases hc : c = 34
    · subst hc
      simp [unquoteChar] at hu
    · simp only [hc, if_false, hu] at h
      by_cases h10 : c = 10
      · simp [h10] at h
      · simp only [h10, if_false] at h
        exact unquoteLoop_not_plain f rem1 buf out rem r mb h1 h2 h

theorem unquoteChar_nonascii (b : Nat) (rest : Bytes) (hb : runeSelf ≤ b) :
    unquoteChar (b :: rest) 34 =
      some ((decodeRune (b :: rest)).1, true, (b :: rest).drop (decodeRune (b :: rest)).2) := by
  have h34 : ¬ b = 34 := by simp only [runeSelf] at hb; omega
  simp [unquoteChar, h34, hb]

theorem unquoteChar_safe (b : Nat) (rest : Bytes) (hb : b < runeSelf) (hs : htmlSafe b = true) :
    unquoteChar (b :: rest) 34 = some (b, false, rest) ∧ b ≠ 34 ∧ b ≠ 10 := by
  simp only [htmlSafe, Bool.and_eq_true, decide_eq_true_eq, ne_eq, Bool.not_eq_true',
    decide_eq_false_iff_not, runeSelf] at hs hb
  have h34 : ¬ b = 34 := by omega
  have h92 : ¬ b = 92 := by omega
  have hlt : ¬ b ≥ 128 := by omega
  refine ⟨?_, h34, by omega⟩
  simp [unquoteChar, h34, h92, runeSelf, hlt]

/-- Reading back a quoted text with the loop of `unquote`: a plain result is the source. -/
theorem unquoteLoop_appendString :
    ∀ (n : Nat) (s : Bytes), s.length ≤ n → ∀ (f : Nat) (buf post out rem : Bytes),
      unquoteLoop 34 f (appendStringBody n s ++ 34 :: post) buf = some (out, rem) →
      allPlain out → out = buf ++ s := by
  have base : ∀ (f : Nat) (buf post out rem : Bytes),
      unquoteLoop 34 f (34 :: post) buf = some (out, rem) → out = buf ++ [] := by
    intro f buf post out rem h
    cases f with
    | zero => simp [unquoteLoop] at h
    | succ f =>
      rw [unquoteLoop_step] at h
      simp only [if_true, Option.some.injEq, Prod.mk.injEq] at h
      simp [h.1]
  intro n
  induction n with
  | zero =>
    intro s hl f buf post out rem h _
    have : s = [] := List.length_eq_zero.mp (Nat.le_zero.mp hl)
    subst this
    exact base f buf post out rem h
  | succ n ih =>
    intro s hl f buf post out rem h hp
    cases s with
    | nil => exact base f buf post out rem h
    | cons b t =>
      have hl2 : t.length ≤ n := by simpa using hl
      rw [appendStringBody_succ] at h
      by_cases hb : b < runeSelf
      · by_cases hs : htmlSafe b = true
        · simp only [hb, hs, if_true, List.cons_append] at h
          obtain ⟨hu, h34, h10⟩ := unquoteChar_safe b (appendStringBody n t ++ 34 :: post) hb hs
          cases f with
          | zero => simp [unquoteLoop] at h
          | succ f =>
            rw [unquoteLoop_step] at h
            simp only [h34, h10, if_false, hu] at h
            have hav : appendValue buf b false = buf ++ [b] := by
              have hm : b % 256 = b := Nat.mod_eq_of_lt (by simp only [runeSelf] at hb; omega)
              simp [appendValue, hm]
            rw [hav] at h
            rw [ih t hl2 f _ post out rem h hp]
            simp
        · have hs2 : htmlSafe b = false := by simpa using hs
          simp only [hb, hs2, if_true, Bool.false_eq_true, if_false, List.append_assoc] at h
          exfalso
          obtain ⟨mb, hu⟩ := unquoteChar_escapeByte b (appendStringBody n t ++ 34 :: post)
            (by simpa [runeSelf] using hb) hs2
          obtain ⟨xs, hx⟩ := escapeByte_head b
          rw [hx] at h hu
          simp only [List.cons_append] at h hu
          refine unquoteLoop_first_not_plain f 92 _ buf out rem _ b mb hu ?_ ?_ h hp
          · intro _
            cases hpb : plainByte b with
            | false => rfl
            | true => exact absurd (htmlSafe_of_plain hpb) hs
          · intro hge; omega
      · simp only [hb, if_false] at h
        exfalso
        split_ifs at h with h1 h2
        · exact unquoteLoop_first_not_plain f 92 _ buf out rem _ 65533 true
            (unquoteChar_fffd _) (by decide) (fun _ => rfl) h hp
        · rcases h2 with h2 | h2
          · rw [h2] at h
            exact unquoteLoop_first_not_plain f 92 _ buf out rem _ 8232 true
              (unquoteChar_2028 _) (by decide) (fun _ => rfl) h hp
          · rw [h2] at h
            exact unquoteLoop_first_not_plain f 92 _ buf out rem _ 8233 true
              (unquoteChar_2029 _) (by decide) (fun _ => rfl) h hp
        · have hsz := decodeRune_size_pos b (t.take 3)
          have ht : (b :: t).take 4 = b :: t.take 3 := rfl
          rw [ht] at h
          obtain ⟨k, hk⟩ : ∃ k, (decodeRune (b :: t.take 3)).2 = k + 1 :=
            ⟨(decodeRune (b :: t.take 3)).2 - 1, by omega⟩
          rw [hk] at h
          simp only [List.take_succ_cons, List.cons_append] at h
          have hge : runeSelf ≤ b := Nat.le_of_not_lt hb
          refine unquoteLoop_first_not_plain f b _ buf out rem _ _ true
            (unquoteChar_nonascii b _ hge) ?_ (fun _ => rfl) h hp
          intro hlt
          exact absurd (decodeRune_ge b _ hge) (Nat.not_le_of_lt hlt)

theorem indexByte_split (c : Nat) :
    ∀ (l : Bytes) (e : Nat), indexByte c l = some e → l = l.take e ++ c :: l.drop (e + 1) := by
  intro l
  induction l with
  | nil => intro e h; simp [indexByte] at h
  | cons b t ih =>
    intro e h
    simp only [indexByte] at h
    by_cases hb : b = c
    · simp only [hb, if_true, Option.some.injEq] at h
      subst h; simp [hb]
    · simp only [hb, if_false, Option.map_eq_some'] at h
      obtain ⟨e1, he1, rfl⟩ := h
      have := ih e1 he1
      simp only [List.take_succ_cons, List.drop_succ_cons, List.cons_append]
      rw [← this]

/-- The two ways `unquote` decodes a double-quoted string. -/
theorem unquote_dquote (x : Nat) (tl out rem : Bytes)
    (h : unquote (34 :: x :: tl) = some (out, rem)) :
    (∃ e, indexByte 34 (x :: tl) = some e ∧ out = (x :: tl).take e ∧
        rem = (x :: tl).drop (e + 1)) ∨
      unquoteLoop 34 ((x :: tl).length + 1) (x :: tl) [] = some (out, rem) := by
  simp only [unquote] at h
  cases hi : indexByte 34 (x :: tl) with
  | none => simp [hi] at h
  | some e =>
    simp only [hi] at h
    have h96 : ¬ (34 : Nat) = 96 := by decide
    simp only [h96, if_false, true_or, if_true] at h
    split_ifs at h with hf
    · left
      simp only [Option.some.injEq, Prod.mk.injEq] at h
      exact ⟨e, rfl, h.1.symm, h.2.symm⟩
    · right; exact h

/-- Unquoting the JSON token of a string: a result made of plain bytes is the string. -/
theorem Unquote_jsonQuote_plain (s t : Bytes) (h : Unquote (jsonQuote s) = some t)
    (hp : allPlain t) : t = s := by
  unfold Unquote at h
  cases hq : unquote (jsonQuote s) with
  | none => simp [hq] at h
  | some p =>
    obtain ⟨out, rem⟩ := p
    simp only [hq] at h
    split_ifs at h with hr
    simp only [Option.some.injEq] at h
    subst h
    have hrem : rem = [] := by
      cases rem with
      | nil => rfl
      | cons a l => simp at hr
    subst hrem
    obtain ⟨x, tl, hx⟩ : ∃ x tl, appendStringBody s.length s ++ [34] = x :: tl := by
      cases appendStringBody s.length s with
      | nil => exact ⟨_, _, rfl⟩
      | cons a l => exact ⟨_, _, rfl⟩
    have hj : jsonQuote s = 34 :: x :: tl := by simp only [jsonQuote, List.cons_append, hx]
    rw [hj] at hq
    rcases unquote_dquote x tl out [] hq with ⟨e, hi, ho, hrm⟩ | hl
    · have hsplit := indexByte_split 34 (x :: tl) e hi
      rw [← ho, ← hrm, ← hx] at hsplit
      have hbody : appendStringBody s.length s = out := List.append_cancel_right hsplit
      rw [← hbody] at hp ⊢
      exact appendStringBody_plain s.length s (Nat.le_refl _) hp
    · rw [← hx] at hl
      have := unquoteLoop_appendString s.length s (Nat.le_refl _) _ [] [] out [] hl hp
      simpa using this

/-- A successful `Builtin.UnmarshalJSON` has unquoted one of the nine identifiers. -/
theorem UnmarshalJSON_ok_name (data : Bytes) (h : isOk (Builtin.UnmarshalJSON data) = true) :
    ∃ t, Unquote data = some t ∧ t ∈ builtinNames := by
  unfold Builtin.UnmarshalJSON at h
  cases hu : Unquote data with
  | none => simp [hu, isOk] at h
  | some t =>
    refine ⟨t, rfl, ?_⟩
    simp only [hu] at h
    simp only [builtinNames, List.mem_cons, List.mem_singleton, List.mem_nil_iff, or_false]
    by_contra hn
    simp only [not_or] at hn
    obtain ⟨h1, h2, h3, h4, h5, h6, h7, h8, h9⟩ := hn
    simp [h1, h2, h3, h4, h5, h6, h7, h8, h9, isOk] at h

/-- On the JSON token of a string, `Builtin.UnmarshalJSON` succeeds exactly for
the nine identifiers. -/
theorem UnmarshalJSON_jsonQuote_isOk (s : Bytes) :
    isOk (Builtin.UnmarshalJSON (jsonQuote s)) = true ↔ s ∈ builtinNames := by
  constructor
  · intro h
    obtain ⟨t, hu, ht⟩ := UnmarshalJSON_ok_name _ h
    have hp : allPlain t := builtinNames_plain t ht
    rw [← Unquote_jsonQuote_plain s t hu hp]
    exact ht
  · intro h
    have hall : ∀ n ∈ builtinNames, isOk (Builtin.UnmarshalJSON (jsonQuote n)) = true := by
      decide
    exact hall s h

/-- C1, evaluated on the code: for each of the nine variants `Builtin.MarshalJSON`
returns the bare identifier, without quotes, and `Builtin.UnmarshalJSON` applied
to those bytes returns the unquoting error instead of the variant. -/
theorem builtin_marshal_unmarshal_fails :
    allBuiltins.map Builtin.MarshalJSON = builtinNames.map Except.ok ∧
      allBuiltins.map (fun b => Builtin.MarshalJSON b >>= Builtin.UnmarshalJSON)
        = List.replicate 9 (.error .unquoteBuiltin) := by
  decide

/-- C2: `Builtin.UnmarshalJSON` applied to the JSON string token of `s` succeeds
exactly when `s` is one of the nine identifiers; the near misses
`unknown_builtin`, `Output` and `output ` (trailing space) are rejected with
the unknown-name error, and so is the empty string. -/
theorem builtin_unmarshal_accepts_iff :
    (∀ s : Bytes, isOk (Builtin.UnmarshalJSON (jsonQuote s)) = true ↔ s ∈ builtinNames) ∧
      Builtin.UnmarshalJSON (jsonQuote (lit "unknown_builtin"))
        = .error (.unknownBuiltin (lit "unknown_builtin")) ∧
      Builtin.UnmarshalJSON (jsonQuote (lit "Output")) = .error (.unknownBuiltin (lit "Output")) ∧
      Builtin.UnmarshalJSON (jsonQuote (lit "output "))
        = .error (.unknownBuiltin (lit "output ")) ∧
      Builtin.UnmarshalJSON (jsonQuote []) = .error (.unknownBuiltin []) := by
  exact ⟨UnmarshalJSON_jsonQuote_isOk, by decide, by decide, by decide, by decide⟩

/-! ### The hint record -/

/-- C3, evaluated on the code: the record with `Index = 2^53 + 1` and a nil
hint list is encoded as `[9007199254740993,null]`, and decoding that array
succeeds with `Index = 2^53`: the index went through `float64`. -/
theorem hints_roundtrip_large_index (env : Env) (hintMarshal : env.Hint → Except Err Json)
    (recv : Hints env) :
    Hints.MarshalJSON env hintMarshal ⟨9007199254740993, none⟩
        = .ok (.arr [.num (lit "9007199254740993"), .null]) ∧
      Hints.UnmarshalJSON env recv (some (.arr [.num (lit "9007199254740993"), .null]))
        = (⟨9007199254740992, none⟩, .ok) := by
  have h : natDigits 9007199254740993 = lit "9007199254740993" := by decide
  refine ⟨?_, rfl⟩
  simp only [Hints.MarshalJSON, marshalHintList, h]

/-- C4, counterexample: the three-element array `[0, [], 7]` is accepted, with
`Index = 0` and an empty hint list. -/
theorem hints_unmarshal_accepts_three :
    sampleHintsView (Hints.UnmarshalJSON sampleEnv (Hints.zero sampleEnv)
        (some (.arr [.num (lit "0"), .arr [], .num (lit "7")]))).1 = (0, some []) ∧
      (Hints.UnmarshalJSON sampleEnv (Hints.zero sampleEnv)
        (some (.arr [.num (lit "0"), .arr [], .num (lit "7")]))).2 = .ok := by
  decide

/-- C4, amended: the elements after the second are ignored.  When every number
among them is in the range of `float64`, `Hints.UnmarshalJSON` does on the array
exactly what it does on the array of its first two elements. -/
theorem hints_unmarshal_ignores_extra (env : Env) (hints : Hints env) (x0 x1 : Json)
    (extra : List Json) (h : (arrayInterface extra).2 = false) :
    Hints.UnmarshalJSON env hints (some (.arr (x0 :: x1 :: extra)))
      = Hints.UnmarshalJSON env hints (some (.arr [x0, x1])) := by
  simp only [Hints.UnmarshalJSON, unmarshalRawHints, arrayInterface, h, Bool.or_false]
  cases (valueInterface x0).2 <;> cases (valueInterface x1).2 <;> rfl

/-- C4, amended, on `[0, [], 7]`. -/
theorem hints_unmarshal_ignores_extra_witness :
    (arrayInterface [.num (lit "7")]).2 = false ∧
      Hints.UnmarshalJSON sampleEnv (Hints.zero sampleEnv)
          (some (.arr [.num (lit "0"), .arr [], .num (lit "7")]))
        = Hints.UnmarshalJSON sampleEnv (Hints.zero sampleEnv)
          (some (.arr [.num (lit "0"), .arr []])) :=
  ⟨by decide, hints_unmarshal_ignores_extra sampleEnv (Hints.zero sampleEnv) _ _ _ (by decide)⟩

/-- C5, evaluated on the code: on `null` and on `[]` the access `rawHints[0]`
panics, and on `[0]` the access `rawHints[1]` panics after `Index` was
assigned; no error value is returned. -/
theorem hints_unmarshal_panics (env : Env) (hints : Hints env) :
    Hints.UnmarshalJSON env hints (some .null) = (hints, .panic) ∧
      Hints.UnmarshalJSON env hints (some (.arr [])) = (hints, .panic) ∧
      Hints.UnmarshalJSON env hints (some (.arr [.num (lit "0")]))
        = (⟨0, hints.Hints⟩, .panic) :=
  ⟨rfl, rfl, rfl⟩

/-- C6, evaluated on the code: `[1.5, []]` is accepted and the index is
truncated to 1. -/
theorem hints_unmarshal_truncates_fraction (env : Env) (hints : Hints env) :
    Hints.UnmarshalJSON env hints (some (.arr [.num (lit "1.5"), .arr []]))
      = (⟨1, some []⟩, .ok) :=
  rfl

set_option maxRecDepth 100000 in
/-- C7, evaluated on the code: `[-1, []]` and `[1e30, []]` are accepted; the
index stored is whatever the platform yields for the out-of-range conversion. -/
theorem hints_unmarshal_out_of_range (env : Env) (hints : Hints env) :
    Hints.UnmarshalJSON env hints (some (.arr [.num (lit "-1"), .arr []]))
        = (⟨env.outOfRange ⟨true, 2 ^ 52, -52⟩ % 2 ^ 64, some []⟩, .ok) ∧
      Hints.UnmarshalJSON env hints (some (.arr [.num (lit "1e30"), .arr []]))
        = (⟨env.outOfRange ⟨false, 7105427357601002, 47⟩ % 2 ^ 64, some []⟩, .ok) :=
  ⟨rfl, rfl⟩

/-! ### The program loader -/

/-- C8, evaluated on the code: a document without the key `hints`, and the same
document with `"hints": null`, load without error; the field `Hints` is the nil
slice. -/
theorem program_without_hints_loads (env : Env) :
    ProgramFromJSON env (some (.obj [(lit "bytecode", .arr []),
        (lit "compiler_version", .str (lit "2.1.0")),
        (lit "entry_points_by_type", .obj [])]))
      = .ret (some ⟨some [], lit "2.1.0", ⟨none, none, none⟩, none⟩) none ∧
    ProgramFromJSON env (some (.obj [(lit "bytecode", .arr []),
        (lit "compiler_version", .str (lit "2.1.0")),
        (lit "entry_points_by_type", .obj []),
        (lit "hints", .null)]))
      = .ret (some ⟨some [], lit "2.1.0", ⟨none, none, none⟩, none⟩) none :=
  ⟨rfl, rfl⟩

/-- C9, counterexample: on the document whose external entry point lists the
builtin `unknown`, `ProgramFromJSON` returns the unknown-name error together
with a program that holds the bytecode and compiler version already decoded. -/
theorem programFromJSON_partial_with_error :
    (ProgramFromJSON sampleEnv (some unknownBuiltinDoc)).err?
        = some (.unknownBuiltin (lit "unknown")) ∧
      (ProgramFromJSON sampleEnv (some unknownBuiltinDoc)).program?.map sampleProgramView
        = some (some [1, 2], lit "2.1.0") := by
  decide

/-! ### The builtins of entry points -/

/-- A text that starts with no quote character is rejected by `Unquote`. -/
theorem Unquote_head (c : Nat) (rest : Bytes) (h1 : c ≠ 96) (h2 : c ≠ 34) (h3 : c ≠ 39) :
    Unquote (c :: rest) = none := by
  unfold Unquote unquote
  cases rest with
  | nil => rfl
  | cons d t =>
    simp only
    cases indexByte c (d :: t) with
    | none => rfl
    | some e => simp [h1, h2, h3]

theorem parseNumLit_head (raw : Bytes) (h : (parseNumLit raw).isSome = true) :
    ∃ c t, raw = c :: t ∧ (c = 45 ∨ isDigit c = true) := by
  cases raw with
  | nil => simp [parseNumLit] at h
  | cons c t =>
    refine ⟨c, t, rfl, ?_⟩
    by_cases h45 : c = 45
    · exact Or.inl h45
    · right
      by_contra hd
      have hs : (c :: t).span isDigit = ([], c :: t) := by
        simp [List.span, List.span.loop, hd]
      have : parseNumLit (c :: t) = none := by
        unfold parseNumLit
        split
        rename_i x sgn t2 heq
        have hm : sgn = false ∧ t2 = c :: t := by
          split at heq
          · rename_i heq2
            simp only [List.cons.injEq] at heq2
            exact absurd heq2.1 h45
          · simp only [Prod.mk.injEq] at heq
            exact ⟨heq.1.symm, heq.2.symm⟩
        obtain ⟨rfl, rfl⟩ := hm
        simp only [hs, ↓reduceIte]
      rw [this] at h
      exact absurd h (by simp)

theorem render_num_unquote (raw : Bytes) (h : (parseNumLit raw).isSome = true) :
    Unquote raw = none := by
  obtain ⟨c, t, rfl, hc⟩ := parseNumLit_head raw h
  apply Unquote_head <;>
    · rcases hc with hc | hc
      · omega
      · simp only [isDigit, Bool.and_eq_true, decide_eq_true_eq] at hc; omega

/-- An element of a `builtins` array that is one of the nine identifiers decodes. -/
theorem decodeBuiltin_good (x : Json) (h : isBuiltinToken x = true) (cur : Builtin)
    (sv : Option Err) : decodeBuiltin cur x sv = ⟨builtinValue x, sv, none⟩ := by
  cases x with
  | str s =>
    simp only [isBuiltinToken, decide_eq_true_eq] at h
    have hok := (UnmarshalJSON_jsonQuote_isOk s).mpr h
    simp only [decodeBuiltin, builtinValue, render]
    cases hu : Builtin.UnmarshalJSON (jsonQuote s) with
    | ok b => rfl
    | error e => simp [hu, isOk] at hok
  | _ => simp [isBuiltinToken] at h

/-- An element of a `builtins` array that is not one of the nine identifiers
stops the decode with an error. -/
theorem decodeBuiltin_bad (x : Json) (h : isBuiltinToken x = false)
    (hn : ∀ raw, x = .num raw → (parseNumLit raw).isSome = true) (cur : Builtin)
    (sv : Option Err) : ∃ e, decodeBuiltin cur x sv = ⟨cur, sv, some (.fatal e)⟩ := by
  have key : ∃ e, Builtin.UnmarshalJSON (render x) = .error e := by
    cases x with
    | str s =>
      simp only [isBuiltinToken, decide_eq_false_iff_not] at h
      have hnot : ¬ isOk (Builtin.UnmarshalJSON (jsonQuote s)) = true :=
        fun hok => h ((UnmarshalJSON_jsonQuote_isOk s).mp hok)
      simp only [render]
      cases hu : Builtin.UnmarshalJSON (jsonQuote s) with
      | ok b => simp [hu, isOk] at hnot
      | error e => exact ⟨e, rfl⟩
    | null => exact ⟨_, rfl⟩
    | bool b => cases b <;> exact ⟨_, rfl⟩
    | num raw =>
      have hu := render_num_unquote raw (hn raw rfl)
      exact ⟨.unquoteBuiltin, by simp [render, Builtin.UnmarshalJSON, hu]⟩
    | arr xs =>
      have hu : Unquote (render (.arr xs)) = none := by
        simp only [render, List.cons_append]
        exact Unquote_head _ _ (by decide) (by decide) (by decide)
      exact ⟨.unquoteBuiltin, by simp [Builtin.UnmarshalJSON, hu]⟩
    | obj kvs =>
      have hu : Unquote (render (.obj kvs)) = none := by
        simp only [render, List.cons_append]
        exact Unquote_head _ _ (by decide) (by decide) (by decide)
      exact ⟨.unquoteBuiltin, by simp [Builtin.UnmarshalJSON, hu]⟩
  obtain ⟨e, he⟩ := key
  exact ⟨e, by simp [decodeBuiltin, he]⟩

/-- The array loop on a fresh slice when every element decodes: the elements in order. -/
theorem decodeArrayLoop_ok {α β : Type} (zero : α) (dec : α → Json → Option Err → Dec α)
    (g : β → Json) (f : β → α) :
    ∀ (l : List β) (acc : List α) (sv : Option Err),
      (∀ a ∈ l, ∀ sv, dec zero (g a) sv = ⟨f a, sv, none⟩) →
      decodeArrayLoop zero dec (l.map g) [] acc sv = ⟨acc ++ l.map f, sv, none⟩ := by
  intro l
  induction l with
  | nil => intro acc sv _; simp [decodeArrayLoop]
  | cons a t ih =>
    intro acc sv h
    have ha := h a (List.mem_cons_self _ _) sv
    simp only [List.map_cons, decodeArrayLoop, List.headD_nil, ha, List.tail_nil]
    rw [ih (acc ++ [f a]) sv (fun b hb => h b (List.mem_cons_of_mem _ hb))]
    simp

/-- The array loop on a fresh slice when an element stops the decode: the error
of the first such element is returned. -/
theorem decodeArrayLoop_fail {α β : Type} (zero : α) (dec : α → Json → Option Err → Dec α)
    (g : β → Json) (f : β → α) :
    ∀ (l : List β) (acc : List α) (sv : Option Err),
      (∀ a ∈ l, (∀ sv, dec zero (g a) sv = ⟨f a, sv, none⟩) ∨
        (∀ sv, ∃ v e, dec zero (g a) sv = ⟨v, sv, some (.fatal e)⟩)) →
      (∃ a ∈ l, ∀ sv, ∃ v e, dec zero (g a) sv = ⟨v, sv, some (.fatal e)⟩) →
      ∃ v e, decodeArrayLoop zero dec (l.map g) [] acc sv = ⟨v, sv, some (.fatal e)⟩ := by
  intro l
  induction l with
  | nil => intro acc sv _ h; obtain ⟨a, ha, _⟩ := h; simp at ha
  | cons a t ih =>
    intro acc sv hall hex
    have stopCase : (∀ sv, ∃ v e, dec zero (g a) sv = ⟨v, sv, some (.fatal e)⟩) →
        ∃ v e, decodeArrayLoop zero dec ((a :: t).map g) [] acc sv
          = ⟨v, sv, some (.fatal e)⟩ := by
      intro hbad
      obtain ⟨v, e, hv⟩ := hbad sv
      exact ⟨acc ++ [v], e, by
        simp only [List.map_cons, decodeArrayLoop, List.headD_nil, hv, List.tail_nil]⟩
    rcases hall a (List.mem_cons_self _ _) with hgood | hbad
    · obtain ⟨b, hb, hbbad⟩ := hex
      rcases List.mem_cons.mp hb with rfl | hbt
      · exact stopCase hbbad
      · have ht := ih (acc ++ [f a]) sv (fun c hc => hall c (List.mem_cons_of_mem _ hc))
          ⟨b, hbt, hbbad⟩
        obtain ⟨v, e, hv⟩ := ht
        exact ⟨v, e, by
          simp only [List.map_cons, decodeArrayLoop, List.headD_nil, hgood sv, List.tail_nil, hv]⟩
    · exact stopCase hbad

theorem decodeBuiltins_ok (env : Env) (xs : List Json) (sv : Option Err)
    (h : ∀ x ∈ xs, isBuiltinToken x = true) :
    decodeBuiltins env none (.arr xs) sv = ⟨some (xs.map builtinValue), sv, none⟩ := by
  have := decodeArrayLoop_ok (0 : Builtin) decodeBuiltin id builtinValue xs [] sv
    (fun x hx sv => decodeBuiltin_good x (h x hx) 0 sv)
  simp only [List.map_id, List.nil_append] at this
  simp only [decodeBuiltins, decodeSlice, Option.getD_none, this]

theorem decodeBuiltins_fail (env : Env) (xs : List Json) (sv : Option Err)
    (hn : ∀ raw, Json.num raw ∈ xs → (parseNumLit raw).isSome = true)
    (h : ∃ x ∈ xs, isBuiltinToken x = false) :
    ∃ v e, decodeBuiltins env none (.arr xs) sv = ⟨v, sv, some (.fatal e)⟩ := by
  have hbad : ∀ x ∈ xs, isBuiltinToken x = false →
      ∀ sv, ∃ v e, decodeBuiltin 0 x sv = ⟨v, sv, some (.fatal e)⟩ := by
    intro x hx hb sv
    obtain ⟨e, he⟩ := decodeBuiltin_bad x hb (fun raw hr => hn raw (hr ▸ hx)) 0 sv
    exact ⟨0, e, he⟩
  have := decodeArrayLoop_fail (0 : Builtin) decodeBuiltin id builtinValue xs [] sv
    (fun x hx => by
      cases hb : isBuiltinToken x with
      | true => exact Or.inl (fun sv => decodeBuiltin_good x hb 0 sv)
      | false => exact Or.inr (hbad x hx hb))
    (by obtain ⟨x, hx, hb⟩ := h; exact ⟨x, hx, hbad x hx hb⟩)
  obtain ⟨v, e, hv⟩ := this
  simp only [List.map_id] at hv
  exact ⟨some v, e, by simp only [decodeBuiltins, decodeSlice, Option.getD_none, hv]⟩

theorem decodeFelt_ok (env : Env) (cur : env.Felt) (x : Json) (sv : Option Err)
    (h : isOk (env.feltUnmarshal x) = true) :
    decodeFelt env cur x sv = ⟨feltValue env x, sv, none⟩ := by
  unfold decodeFelt feltValue
  cases hu : env.feltUnmarshal x with
  | ok v => rfl
  | error e => simp [hu, isOk] at h

theorem stepEntryPointInfo_selector (env : Env) (v : EntryPointInfo env) (x : Json)
    (sv : Option Err) :
    stepEntryPointInfo env v (lit "selector") x sv =
      ⟨{ v with Selector := (decodeFelt env v.Selector x sv).val },
        (decodeFelt env v.Selector x sv).saved, (decodeFelt env v.Selector x sv).stop⟩ := rfl

theorem stepEntryPointInfo_offset (env : Env) (v : EntryPointInfo env) (x : Json)
    (sv : Option Err) :
    stepEntryPointInfo env v (lit "offset") x sv =
      ⟨{ v with Offset := (decodeFelt env v.Offset x sv).val },
        (decodeFelt env v.Offset x sv).saved, (decodeFelt env v.Offset x sv).stop⟩ := rfl

theorem stepEntryPointInfo_builtins (env : Env) (v : EntryPointInfo env) (x : Json)
    (sv : Option Err) :
    stepEntryPointInfo env v (lit "builtins") x sv =
      ⟨{ v with Builtins := (decodeBuiltins env v.Builtins x sv).val },
        (decodeBuiltins env v.Builtins x sv).saved, (decodeBuiltins env v.Builtins x sv).stop⟩ :=
  rfl

/-- Decoding a well-formed entry point object into a fresh `EntryPointInfo`, given
what the decode of its `builtins` array yields. -/
theorem decodeEntryPointInfo_toJson (env : Env) (e : EntryDoc) (sv : Option Err)
    (h : EntryDoc.otherwiseOk env e) :
    decodeEntryPointInfo env (EntryPointInfo.zero env) e.toJson sv =
      ⟨⟨feltValue env e.selector, feltValue env e.offset,
          (decodeBuiltins env none (.arr e.builtins) sv).val⟩,
        (decodeBuiltins env none (.arr e.builtins) sv).saved,
        (decodeBuiltins env none (.arr e.builtins) sv).stop⟩ := by
  obtain ⟨h1, h2, _⟩ := h
  simp only [decodeEntryPointInfo, decodeStruct, EntryDoc.toJson, decodeMembers,
    stepEntryPointInfo_selector, stepEntryPointInfo_offset, stepEntryPointInfo_builtins,
    decodeFelt_ok env _ _ _ h1, decodeFelt_ok env _ _ _ h2, EntryPointInfo.zero]
  cases (decodeBuiltins env none (.arr e.builtins) sv).stop <;> rfl

theorem decodeEntryPoints_ok (env : Env) (es : List EntryDoc) (sv : Option Err)
    (hw : ∀ e ∈ es, EntryDoc.otherwiseOk env e) (h : allBuiltinTokens es) :
    decodeEntryPoints env none (.arr (es.map EntryDoc.toJson)) sv
      = ⟨some (es.map (EntryDoc.decoded env)), sv, none⟩ := by
  have := decodeArrayLoop_ok (EntryPointInfo.zero env) (decodeEntryPointInfo env)
    EntryDoc.toJson (EntryDoc.decoded env) es [] sv
    (fun e he sv => by
      rw [decodeEntryPointInfo_toJson env e sv (hw e he), decodeBuiltins_ok env _ sv (h e he)]
      rfl)
  simp only [List.nil_append] at this
  simp only [decodeEntryPoints, decodeSlice, Option.getD_none, this]

theorem decodeEntryPoints_fail (env : Env) (es : List EntryDoc) (sv : Option Err)
    (hw : ∀ e ∈ es, EntryDoc.otherwiseOk env e) (h : ¬ allBuiltinTokens es) :
    ∃ v err, decodeEntryPoints env none (.arr (es.map EntryDoc.toJson)) sv
      = ⟨v, sv, some (.fatal err)⟩ := by
  have hbad : ∀ e ∈ es, (¬ ∀ x ∈ e.builtins, isBuiltinToken x = true) →
      ∀ sv, ∃ v err, decodeEntryPointInfo env (EntryPointInfo.zero env) e.toJson sv
        = ⟨v, sv, some (.fatal err)⟩ := by
    intro e he hb sv
    have hex : ∃ x ∈ e.builtins, isBuiltinToken x = false := by
      by_contra hc
      apply hb
      intro x hx
      cases hbx : isBuiltinToken x with
      | true => rfl
      | false => exact absurd ⟨x, hx, hbx⟩ hc
    obtain ⟨v, err, hv⟩ := decodeBuiltins_fail env e.builtins sv (hw e he).2.2 hex
    exact ⟨_, err, by rw [decodeEntryPointInfo_toJson env e sv (hw e he), hv]⟩
  have := decodeArrayLoop_fail (EntryPointInfo.zero env) (decodeEntryPointInfo env)
    EntryDoc.toJson (EntryDoc.decoded env) es [] sv
    (fun e he => by
      by_cases hb : ∀ x ∈ e.builtins, isBuiltinToken x = true
      · left
        intro sv
        rw [decodeEntryPointInfo_toJson env e sv (hw e he), decodeBuiltins_ok env _ sv hb]
        rfl
      · exact Or.inr (hbad e he hb))
    (by
      by_contra hc
      apply h
      intro e he
      by_contra hb
      exact hc ⟨e, he, hbad e he hb⟩)
  obtain ⟨v, err, hv⟩ := this
  exact ⟨some v, err, by simp only [decodeEntryPoints, decodeSlice, Option.getD_none, hv]⟩

theorem stepEntryPointByType_external (env : Env) (v : EntryPointByType env) (x : Json)
    (sv : Option Err) :
    stepEntryPointByType env v (lit "EXTERNAL") x sv =
      ⟨{ v with External := (decodeEntryPoints env v.External x sv).val },
        (decodeEntryPoints env v.External x sv).saved,
        (decodeEntryPoints env v.External x sv).stop⟩ := rfl

theorem stepEntryPointByType_l1 (env : Env) (v : EntryPointByType env) (x : Json)
    (sv : Option Err) :
    stepEntryPointByType env v (lit "L1_HANDLER") x sv =
      ⟨{ v with L1Handler := (decodeEntryPoints env v.L1Handler x sv).val },
        (decodeEntryPoints env v.L1Handler x sv).saved,
        (decodeEntryPoints env v.L1Handler x sv).stop⟩ := rfl

theorem stepEntryPointByType_constructor (env : Env) (v : EntryPointByType env) (x : Json)
    (sv : Option Err) :
    stepEntryPointByType env v (lit "CONSTRUCTOR") x sv =
      ⟨{ v with Constructor := (decodeEntryPoints env v.Constructor x sv).val },
        (decodeEntryPoints env v.Constructor x sv).saved,
        (decodeEntryPoints env v.Constructor x sv).stop⟩ := rfl

theorem allBuiltinTokens_append (a b : List EntryDoc) :
    allBuiltinTokens (a ++ b) ↔ allBuiltinTokens a ∧ allBuiltinTokens b := by
  simp only [allBuiltinTokens, List.mem_append]
  constructor
  · intro h
    exact ⟨fun e he => h e (Or.inl he), fun e he => h e (Or.inr he)⟩
  · rintro ⟨h1, h2⟩ e (he | he)
    · exact h1 e he
    · exact h2 e he

/-- Decoding the object of the three buckets into a fresh `EntryPointByType`. -/
theorem decodeByType_doc (env : Env) (ext l1 ctor : List EntryDoc) (sv : Option Err)
    (hw : ∀ e ∈ ext ++ l1 ++ ctor, EntryDoc.otherwiseOk env e) :
    (allBuiltinTokens (ext ++ l1 ++ ctor) →
      decodeStruct (stepEntryPointByType env) ⟨none, none, none⟩
          (.obj [(lit "EXTERNAL", .arr (ext.map EntryDoc.toJson)),
            (lit "L1_HANDLER", .arr (l1.map EntryDoc.toJson)),
            (lit "CONSTRUCTOR", .arr (ctor.map EntryDoc.toJson))]) sv
        = ⟨⟨some (ext.map (EntryDoc.decoded env)), some (l1.map (EntryDoc.decoded env)),
            some (ctor.map (EntryDoc.decoded env))⟩, sv, none⟩) ∧
    (¬ allBuiltinTokens (ext ++ l1 ++ ctor) →
      ∃ v err, decodeStruct (stepEntryPointByType env) ⟨none, none, none⟩
          (.obj [(lit "EXTERNAL", .arr (ext.map EntryDoc.toJson)),
            (lit "L1_HANDLER", .arr (l1.map EntryDoc.toJson)),
            (lit "CONSTRUCTOR", .arr (ctor.map EntryDoc.toJson))]) sv
        = ⟨v, sv, some (.fatal err)⟩) := by
  have hw1 : ∀ e ∈ ext, EntryDoc.otherwiseOk env e :=
    fun e he => hw e (List.mem_append.mpr (Or.inl (List.mem_append.mpr (Or.inl he))))
  have hw2 : ∀ e ∈ l1, EntryDoc.otherwiseOk env e :=
    fun e he => hw e (List.mem_append.mpr (Or.inl (List.mem_append.mpr (Or.inr he))))
  have hw3 : ∀ e ∈ ctor, EntryDoc.otherwiseOk env e :=
    fun e he => hw e (List.mem_append.mpr (Or.inr he))
  simp only [decodeStruct, decodeMembers, stepEntryPointByType_external,
    stepEntryPointByType_l1, stepEntryPointByType_constructor, allBuiltinTokens_append]
  by_cases h1 : allBuiltinTokens ext
  · rw [decodeEntryPoints_ok env ext sv hw1 h1]
    by_cases h2 : allBuiltinTokens l1
    · simp only [decodeEntryPoints_ok env l1 sv hw2 h2]
      by_cases h3 : allBuiltinTokens ctor
      · simp only [decodeEntryPoints_ok env ctor sv hw3 h3]
        refine ⟨fun _ => ?_, fun hn => absurd ⟨⟨h1, h2⟩, h3⟩ hn⟩
        first | rfl | trivial
      · obtain ⟨v, err, hv⟩ := decodeEntryPoints_fail env ctor sv hw3 h3
        simp only [hv]
        exact ⟨fun ha => absurd ha.2 h3, fun _ => ⟨_, err, rfl⟩⟩
    · obtain ⟨v, err, hv⟩ := decodeEntryPoints_fail env l1 sv hw2 h2
      simp only [hv]
      exact ⟨fun ha => absurd ha.1.2 h2, fun _ => ⟨_, err, rfl⟩⟩
  · obtain ⟨v, err, hv⟩ := decodeEntryPoints_fail env ext sv hw1 h1
    simp only [hv]
    exact ⟨fun ha => absurd ha.1.1 h1, fun _ => ⟨_, err, rfl⟩⟩

theorem stepProgram_bytecode (env : Env) (v : Program env) (x : Json) (sv : Option Err) :
    stepProgram env v (lit "bytecode") x sv =
      ⟨{ v with Bytecode := (decodeSlice env.feltZero (decodeFelt env) v.Bytecode x sv).val },
        (decodeSlice env.feltZero (decodeFelt env) v.Bytecode x sv).saved,
        (decodeSlice env.feltZero (decodeFelt env) v.Bytecode x sv).stop⟩ := rfl

theorem stepProgram_version (env : Env) (v : Program env) (x : Json) (sv : Option Err) :
    stepProgram env v (lit "compiler_version") x sv =
      ⟨{ v with CompilerVersion := (decodeString v.CompilerVersion x sv).val },
        (decodeString v.CompilerVersion x sv).saved,
        (decodeString v.CompilerVersion x sv).stop⟩ := rfl

theorem stepProgram_entryPoints (env : Env) (v : Program env) (x : Json) (sv : Option Err) :
    stepProgram env v (lit "entry_points_by_type") x sv =
      ⟨{ v with EntryPoints := (decodeStruct (stepEntryPointByType env) v.EntryPoints x sv).val },
        (decodeStruct (stepEntryPointByType env) v.EntryPoints x sv).saved,
        (decodeStruct (stepEntryPointByType env) v.EntryPoints x sv).stop⟩ := rfl

theorem stepProgram_hints (env : Env) (v : Program env) (x : Json) (sv : Option Err) :
    stepProgram env v (lit "hints") x sv =
      ⟨{ v with Hints := (decodeSlice (Hints.zero env) (decodeHints env) v.Hints x sv).val },
        (decodeSlice (Hints.zero env) (decodeHints env) v.Hints x sv).saved,
        (decodeSlice (Hints.zero env) (decodeHints env) v.Hints x sv).stop⟩ := rfl

theorem decodeBytecode_ok (env : Env) (bytecode : List Json) (sv : Option Err)
    (hb : ∀ x ∈ bytecode, isOk (env.feltUnmarshal x) = true) :
    decodeSlice env.feltZero (decodeFelt env) none (.arr bytecode) sv
      = ⟨some (bytecode.map (feltValue env)), sv, none⟩ := by
  have := decodeArrayLoop_ok env.feltZero (decodeFelt env) id (feltValue env) bytecode [] sv
    (fun x hx sv => decodeFelt_ok env _ x sv (hb x hx))
  simp only [List.map_id, List.nil_append] at this
  simp only [decodeSlice, Option.getD_none, this]

theorem decodeHints_ok (env : Env) (h : Json) (sv : Option Err)
    (hh : (Hints.UnmarshalJSON env (Hints.zero env) (some h)).2 = .ok) :
    decodeHints env (Hints.zero env) h sv = ⟨hintsValue env h, sv, none⟩ := by
  unfold decodeHints hintsValue
  cases hr : Hints.UnmarshalJSON env (Hints.zero env) (some h) with
  | mk v o =>
    rw [hr] at hh
    simp only at hh
    subst hh
    rfl

theorem decodeHintsList_ok (env : Env) (hints : List Json) (sv : Option Err)
    (hh : ∀ h ∈ hints, (Hints.UnmarshalJSON env (Hints.zero env) (some h)).2 = .ok) :
    decodeSlice (Hints.zero env) (decodeHints env) none (.arr hints) sv
      = ⟨some (hints.map (hintsValue env)), sv, none⟩ := by
  have := decodeArrayLoop_ok (Hints.zero env) (decodeHints env) id (hintsValue env) hints [] sv
    (fun x hx sv => decodeHints_ok env x sv (hh x hx))
  simp only [List.map_id, List.nil_append] at this
  simp only [decodeSlice, Option.getD_none, this]

/-- Decoding a well-formed program document into the zero `Program`. -/
theorem unmarshalProgram_doc (env : Env) (bytecode : List Json) (version : Bytes)
    (ext l1 ctor : List EntryDoc) (hints : List Json)
    (hb : ∀ x ∈ bytecode, isOk (env.feltUnmarshal x) = true)
    (hw : ∀ e ∈ ext ++ l1 ++ ctor, EntryDoc.otherwiseOk env e)
    (hh : ∀ h ∈ hints, (Hints.UnmarshalJSON env (Hints.zero env) (some h)).2 = .ok) :
    (allBuiltinTokens (ext ++ l1 ++ ctor) →
      unmarshalProgram env (some (programDoc bytecode version ext l1 ctor hints))
          (Program.zero env)
        = ⟨⟨some (bytecode.map (feltValue env)), version,
            ⟨some (ext.map (EntryDoc.decoded env)), some (l1.map (EntryDoc.decoded env)),
              some (ctor.map (EntryDoc.decoded env))⟩,
            some (hints.map (hintsValue env))⟩, none, none⟩) ∧
    (¬ allBuiltinTokens (ext ++ l1 ++ ctor) →
      ∃ v err, unmarshalProgram env (some (programDoc bytecode version ext l1 ctor hints))
          (Program.zero env) = ⟨v, none, some (.fatal err)⟩) := by
  obtain ⟨hgood, hbad⟩ := decodeByType_doc env ext l1 ctor none hw
  simp only [unmarshalProgram, programDoc, decodeStruct, decodeMembers, stepProgram_bytecode,
    stepProgram_version, stepProgram_entryPoints, stepProgram_hints, Program.zero,
    decodeBytecode_ok env bytecode none hb, decodeString] at hgood hbad ⊢
  constructor
  · intro ha
    simp only [hgood ha, decodeHintsList_ok env hints none hh]
  · intro hn
    obtain ⟨v, err, hv⟩ := hbad hn
    simp only [hv]
    exact ⟨_, err, rfl⟩

theorem builtinValue_ok (x : Json) (h : isBuiltinToken x = true) :
    Builtin.UnmarshalJSON (render x) = .ok (builtinValue x) := by
  have hg := decodeBuiltin_good x h 0 none
  unfold decodeBuiltin at hg
  unfold builtinValue
  cases hu : Builtin.UnmarshalJSON (render x) with
  | ok b => rfl
  | error e => simp [hu] at hg

/-- C10: for a program document that is well formed apart from the identifiers
of its builtins (field elements and hints decode), `ProgramFromJSON` returns
without error exactly when every element of every `builtins` array, in the
three buckets, is one of the nine identifiers; each `Builtins` slice is then the
element-wise `Builtin.UnmarshalJSON` of its array, in order; and if some
element is not one of the nine identifiers the load returns an error. -/
theorem program_builtins_decode (env : Env) (bytecode : List Json) (version : Bytes)
    (ext l1 ctor : List EntryDoc) (hints : List Json)
    (hb : ∀ x ∈ bytecode, isOk (env.feltUnmarshal x) = true)
    (hw : ∀ e ∈ ext ++ l1 ++ ctor, EntryDoc.otherwiseOk env e)
    (hh : ∀ h ∈ hints, (Hints.UnmarshalJSON env (Hints.zero env) (some h)).2 = .ok) :
    (((ProgramFromJSON env (some (programDoc bytecode version ext l1 ctor hints))).err? = none ∧
        (ProgramFromJSON env (some (programDoc bytecode version ext l1 ctor hints))).panicked
          = false) ↔ allBuiltinTokens (ext ++ l1 ++ ctor)) ∧
    (allBuiltinTokens (ext ++ l1 ++ ctor) →
      (∀ e ∈ ext ++ l1 ++ ctor, ∀ x ∈ e.builtins,
        Builtin.UnmarshalJSON (render x) = .ok (builtinValue x)) ∧
      ∃ p, ProgramFromJSON env (some (programDoc bytecode version ext l1 ctor hints))
          = .ret (some p) none ∧
        bucketBuiltins p.EntryPoints.External = some (docBuiltins ext) ∧
        bucketBuiltins p.EntryPoints.L1Handler = some (docBuiltins l1) ∧
        bucketBuiltins p.EntryPoints.Constructor = some (docBuiltins ctor)) ∧
    (¬ allBuiltinTokens (ext ++ l1 ++ ctor) →
      ∃ p err, ProgramFromJSON env (some (programDoc bytecode version ext l1 ctor hints))
        = .ret (some p) (some err)) := by
  obtain ⟨hgood, hbad⟩ := unmarshalProgram_doc env bytecode version ext l1 ctor hints hb hw hh
  have hOk : allBuiltinTokens (ext ++ l1 ++ ctor) →
      ∃ p, ProgramFromJSON env (some (programDoc bytecode version ext l1 ctor hints))
          = .ret (some p) none ∧
        bucketBuiltins p.EntryPoints.External = some (docBuiltins ext) ∧
        bucketBuiltins p.EntryPoints.L1Handler = some (docBuiltins l1) ∧
        bucketBuiltins p.EntryPoints.Constructor = some (docBuiltins ctor) := by
    intro ha
    refine ⟨(unmarshalProgram env (some (programDoc bytecode version ext l1 ctor hints))
      (Program.zero env)).val, ?_, ?_, ?_, ?_⟩
    · simp only [ProgramFromJSON, hgood ha]
    all_goals
      rw [hgood ha]
      simp [bucketBuiltins, docBuiltins, EntryDoc.decoded]
  have hErr : ¬ allBuiltinTokens (ext ++ l1 ++ ctor) →
      ∃ p err, ProgramFromJSON env (some (programDoc bytecode version ext l1 ctor hints))
        = .ret (some p) (some err) := by
    intro hn
    obtain ⟨v, err, hv⟩ := hbad hn
    refine ⟨(unmarshalProgram env (some (programDoc bytecode version ext l1 ctor hints))
      (Program.zero env)).val, err, ?_⟩
    simp only [ProgramFromJSON, hv]
  refine ⟨⟨fun h => ?_, fun ha => ?_⟩, fun ha => ⟨fun e he x hx => ?_, hOk ha⟩, hErr⟩
  · by_contra hn
    obtain ⟨p, err, hp⟩ := hErr hn
    rw [hp] at h
    simp [LoadResult.err?] at h
  · obtain ⟨p, hp, _⟩ := hOk ha
    rw [hp]
    exact ⟨rfl, rfl⟩
  · exact builtinValue_ok x (ha e he x hx)

/-- C10 on the document of the end-to-end scenario. -/
theorem program_builtins_decode_witness :
    (∀ x ∈ sampleBytecode, isOk (sampleEnv.feltUnmarshal x) = true) ∧
    (∀ h ∈ sampleHintsDoc,
      (Hints.UnmarshalJSON sampleEnv (Hints.zero sampleEnv) (some h)).2 = .ok) ∧
    allBuiltinTokens (sampleExternal ++ [] ++ []) ∧
    ∃ p, ProgramFromJSON sampleEnv
        (some (programDoc sampleBytecode (lit "2.1.0") sampleExternal [] [] sampleHintsDoc))
          = .ret (some p) none ∧
      bucketBuiltins p.EntryPoints.External = some [some [RangeCheck, Pedersen]] := by
  have hb : ∀ x ∈ sampleBytecode, isOk (sampleEnv.feltUnmarshal x) = true := by decide
  have hh : ∀ h ∈ sampleHintsDoc,
      (Hints.UnmarshalJSON sampleEnv (Hints.zero sampleEnv) (some h)).2 = .ok := by decide
  have hw : ∀ e ∈ sampleExternal ++ [] ++ [], EntryDoc.otherwiseOk sampleEnv e := by
    intro e he
    simp only [sampleExternal, List.append_nil, List.mem_singleton] at he
    subst he
    refine ⟨by decide, by decide, fun raw hr => ?_⟩
    simp at hr
  have ha : allBuiltinTokens (sampleExternal ++ [] ++ []) := by
    unfold allBuiltinTokens
    decide
  obtain ⟨p, hp, h1, _, _⟩ :=
    ((program_builtins_decode sampleEnv sampleBytecode (lit "2.1.0") sampleExternal [] []
      sampleHintsDoc hb hw hh).2.1 ha).2
  refine ⟨hb, hh, ha, p, hp, ?_⟩
  rw [h1]
  decide

/-! ### Fuel of the loops -/

theorem readHex_length : ∀ (n v : Nat) (s : Bytes) (w : Nat) (rem : Bytes),
    readHex n v s = some (w, rem) → rem.length ≤ s.length := by
  intro n
  induction n with
  | zero => intro v s w rem h; simp only [readHex, Option.some.injEq, Prod.mk.injEq] at h; rw [h.2]
  | succ n ih =>
    intro v s w rem h
    cases s with
    | nil => simp [readHex] at h
    | cons b t =>
      simp only [readHex] at h
      cases hu : unhex b with
      | none => simp [hu] at h
      | some x =>
        simp only [hu] at h
        have := ih _ _ _ _ h
        simp only [List.length_cons]; omega

theorem readOct_length : ∀ (n v : Nat) (s : Bytes) (w : Nat) (rem : Bytes),
    readOct n v s = some (w, rem) → rem.length ≤ s.length := by
  intro n
  induction n with
  | zero => intro v s w rem h; simp only [readOct, Option.some.injEq, Prod.mk.injEq] at h; rw [h.2]
  | succ n ih =>
    intro v s w rem h
    cases s with
    | nil => simp [readOct] at h
    | cons b t =>
      simp only [readOct] at h
      split_ifs at h
      have := ih _ _ _ _ h
      simp only [List.length_cons]; omega

/-- The escape branch of `UnquoteChar` consumes at least the two bytes of the escape. -/
theorem unquoteChar_escape_length (c1 : Nat) (s2 : Bytes) (q r : Nat) (mb : Bool) (rem : Bytes)
    (h : unquoteChar (92 :: c1 :: s2) q = some (r, mb, rem)) : rem.length ≤ s2.length := by
  have hq : ¬ ((92 : Nat) = q ∧ (q = 39 ∨ q = 34)) := by
    rintro ⟨rfl, h | h⟩ <;> omega
  have h128 : ¬ (92 : Nat) ≥ runeSelf := by decide
  simp only [unquoteChar, Bool.and_eq_true, Bool.or_eq_true, decide_eq_true_eq, hq, if_false,
    h128, ne_eq, not_true_eq_false] at h
  by_cases hx : c1 = 120 ∨ c1 = 117 ∨ c1 = 85
  · have h7 : ¬ c1 = 97 ∧ ¬ c1 = 98 ∧ ¬ c1 = 102 ∧ ¬ c1 = 110 ∧ ¬ c1 = 114 ∧ ¬ c1 = 116 ∧
        ¬ c1 = 118 := by omega
    obtain ⟨a1, a2, a3, a4, a5, a6, a7⟩ := h7
    have hx2 : (c1 = 120 ∨ c1 = 117) ∨ c1 = 85 := by omega
    simp only [a1, a2, a3, a4, a5, a6, a7, if_false, hx2, if_true] at h
    cases hr : readHex (if c1 = 120 then 2 else if c1 = 117 then 4 else 8) 0 s2 with
    | none => simp [hr] at h
    | some p =>
      obtain ⟨v, s3⟩ := p
      have hl := readHex_length _ _ _ _ _ hr
      simp only [hr] at h
      split_ifs at h <;>
        (simp only [Option.some.injEq, Prod.mk.injEq] at h
         rw [← h.2.2]; exact hl)
  · by_cases ho : 48 ≤ c1 ∧ c1 ≤ 55
    · have h7 : ¬ c1 = 97 ∧ ¬ c1 = 98 ∧ ¬ c1 = 102 ∧ ¬ c1 = 110 ∧ ¬ c1 = 114 ∧ ¬ c1 = 116 ∧
          ¬ c1 = 118 := by omega
      obtain ⟨a1, a2, a3, a4, a5, a6, a7⟩ := h7
      have hx2 : ¬ ((c1 = 120 ∨ c1 = 117) ∨ c1 = 85) := by omega
      simp only [a1, a2, a3, a4, a5, a6, a7, if_false, hx2, ho, and_self, if_true] at h
      cases hr : readOct 2 (c1 - 48) s2 with
      | none => simp [hr] at h
      | some p =>
        obtain ⟨v, s3⟩ := p
        have hl := readOct_length _ _ _ _ _ hr
        simp only [hr] at h
        split_ifs at h
        simp only [Option.some.injEq, Prod.mk.injEq] at h
        rw [← h.2.2]; exact hl
    · have hx2 : ¬ ((c1 = 120 ∨ c1 = 117) ∨ c1 = 85) := by omega
      by_cases a97 : c1 = 97
      · rw [if_pos a97] at h; cases h; exact Nat.le_refl _
      rw [if_neg a97] at h
      by_cases a98 : c1 = 98
      · rw [if_pos a98] at h; cases h; exact Nat.le_refl _
      rw [if_neg a98] at h
      by_cases a102 : c1 = 102
      · rw [if_pos a102] at h; cases h; exact Nat.le_refl _
      rw [if_neg a102] at h
      by_cases a110 : c1 = 110
      · rw [if_pos a110] at h; cases h; exact Nat.le_refl _
      rw [if_neg a110] at h
      by_cases a114 : c1 = 114
      · rw [if_pos a114] at h; cases h; exact Nat.le_refl _
      rw [if_neg a114] at h
      by_cases a116 : c1 = 116
      · rw [if_pos a116] at h; cases h; exact Nat.le_refl _
      rw [if_neg a116] at h
      by_cases a118 : c1 = 118
      · rw [if_pos a118] at h; cases h; exact Nat.le_refl _
      rw [if_neg a118] at h
      rw [if_neg hx2, if_neg ho] at h
      by_cases a92 : c1 = 92
      · rw [if_pos a92] at h; cases h; exact Nat.le_refl _
      rw [if_neg a92] at h
      by_cases aq : c1 = 39 ∨ c1 = 34
      · rw [if_pos aq] at h
        by_cases aq2 : ¬ c1 = q
        · rw [if_pos aq2] at h; cases h
        · rw [if_neg aq2] at h; cases h; exact Nat.le_refl _
      · rw [if_neg aq] at h; cases h

/-- Each call of `UnquoteChar` consumes at least one byte. -/
theorem unquoteChar_length (s : Bytes) (q r : Nat) (mb : Bool) (rem : Bytes)
    (h : unquoteChar s q = some (r, mb, rem)) : rem.length < s.length := by
  cases s with
  | nil => simp [unquoteChar] at h
  | cons c t =>
    by_cases h92 : c = 92
    · subst h92
      cases t with
      | nil =>
        have hq : ¬ ((92 : Nat) = q ∧ (q = 39 ∨ q = 34)) := by
          rintro ⟨rfl, h | h⟩ <;> omega
        have h128 : ¬ (92 : Nat) ≥ runeSelf := by decide
        simp [unquoteChar, hq, h128] at h
      | cons c1 s2 =>
        have := unquoteChar_escape_length c1 s2 q r mb rem h
        simp only [List.length_cons]; omega
    · unfold unquoteChar at h
      simp only [Bool.and_eq_true, Bool.or_eq_true, decide_eq_true_eq, ne_eq, h92,
        not_false_eq_true, if_true] at h
      split_ifs at h with h1 h2
      · have hsz := decodeRune_size_pos c t
        simp only [Option.some.injEq, Prod.mk.injEq] at h
        rw [← h.2.2]
        simp only [List.length_drop, List.length_cons]
        omega
      · simp only [Option.some.injEq, Prod.mk.injEq] at h
        rw [← h.2.2]; simp

/-- The loop of `unquote` does not depend on its fuel once above the length of the input. -/
theorem unquoteLoop_fuel (q : Nat) : ∀ (f1 f2 : Nat) (inp buf : Bytes),
    inp.length < f1 → inp.length < f2 →
    unquoteLoop q f1 inp buf = unquoteLoop q f2 inp buf := by
  intro f1
  induction f1 with
  | zero => intro f2 inp buf h; omega
  | succ n ih =>
    intro f2 inp buf h1 h2
    cases f2 with
    | zero => omega
    | succ m =>
      cases inp with
      | nil => simp [unquoteLoop]
      | cons c rest =>
        simp only [unquoteLoop]
        split_ifs with hc h10 h39
        · rfl
        · rfl
        · rfl
        · cases hu : unquoteChar (c :: rest) q with
          | none => rfl
          | some p =>
            obtain ⟨r, mb, rem⟩ := p
            have hl := unquoteChar_length _ _ _ _ _ hu
            simp only [List.length_cons] at hl h1 h2
            simp only
            exact ih m rem _ (by omega) (by omega)

/-- The loop of `appendString` does not depend on its fuel once at the length of the source. -/
theorem appendStringBody_fuel : ∀ (n m : Nat) (s : Bytes), s.length ≤ n → s.length ≤ m →
    appendStringBody n s = appendStringBody m s := by
  intro n
  induction n with
  | zero =>
    intro m s h _
    have : s = [] := List.length_eq_zero.mp (Nat.le_zero.mp h)
    subst this
    cases m <;> rfl
  | succ n ih =>
    intro m s h1 h2
    cases s with
    | nil => cases m <;> rfl
    | cons b t =>
      cases m with
      | zero => simp at h2
      | succ m =>
        simp only [List.length_cons, Nat.add_le_add_iff_right] at h1 h2
        have hd : ∀ k, ((b :: t).drop (k + 1)).length ≤ t.length := by
          intro k; simp only [List.drop_succ_cons, List.length_drop]; omega
        have hsz := decodeRune_size_pos b (t.take 3)
        obtain ⟨k, hk⟩ : ∃ k, (decodeRune ((b :: t).take 4)).2 = k + 1 :=
          ⟨(decodeRune (b :: t.take 3)).2 - 1, by
            have : (b :: t).take 4 = b :: t.take 3 := rfl
            rw [this]; omega⟩
        rw [appendStringBody_succ, appendStringBody_succ, hk,
          ih m t h1 h2, ih m _ (le_trans (hd k) h1) (le_trans (hd k) h2)]

/-- The halving loop does not depend on its fuel once at the number. -/
theorem log2Fuel_fuel : ∀ (f1 f2 n : Nat), n ≤ f1 → n ≤ f2 → log2Fuel f1 n = log2Fuel f2 n := by
  intro f1
  induction f1 with
  | zero =>
    intro f2 n h _
    have : n = 0 := Nat.le_zero.mp h
    subst this
    cases f2 <;> simp [log2Fuel]
  | succ k ih =>
    intro f2 n h1 h2
    cases f2 with
    | zero =>
      have : n = 0 := Nat.le_zero.mp h2
      subst this
      simp [log2Fuel]
    | succ m =>
      simp only [log2Fuel]
      split_ifs with hn
      · rw [ih m (n / 2) (by omega) (by omega)]
      · rfl

/-- The digit loop does not depend on its fuel once above the number. -/
theorem natDigitsAux_fuel : ∀ (f1 f2 n : Nat) (acc : Bytes), n < f1 → n < f2 →
    natDigitsAux f1 n acc = natDigitsAux f2 n acc := by
  intro f1
  induction f1 with
  | zero => intro f2 n acc h; omega
  | succ k ih =>
    intro f2 n acc h1 h2
    cases f2 with
    | zero => omega
    | succ m =>
      simp only [natDigitsAux]
      split_ifs with hn
      · rfl
      · exact ih m (n / 10) _ (by omega) (by omega)

/-- The folding loop does not depend on its fuel once at the length of the key. -/
theorem foldName_fuel : ∀ (n m : Nat) (s : Bytes), s.length ≤ n → s.length ≤ m →
    foldName n s = foldName m s := by
  intro n
  induction n with
  | zero =>
    intro m s h _
    have : s = [] := List.length_eq_zero.mp (Nat.le_zero.mp h)
    subst this
    cases m <;> rfl
  | succ n ih =>
    intro m s h1 h2
    cases s with
    | nil => cases m <;> rfl
    | cons b t =>
      cases m with
      | zero => simp at h2
      | succ m =>
        simp only [List.length_cons, Nat.add_le_add_iff_right] at h1 h2
        have hsz := decodeRune_size_pos b t
        obtain ⟨k, hk⟩ : ∃ k, (decodeRune (b :: t)).2 = k + 1 :=
          ⟨(decodeRune (b :: t)).2 - 1, by omega⟩
        have hd : ((b :: t).drop (k + 1)).length ≤ t.length := by
          simp only [List.drop_succ_cons, List.length_drop]; omega
        simp only [foldName, hk]
        rw [ih m t h1 h2, ih m _ (le_trans hd h1) (le_trans hd h2)]

/-! ### The end-to-end scenario -/

set_option maxRecDepth 100000 in
/-- C11: on the document of the end-to-end scenario, and a field element codec that
reads the tokens `"1"`, `"2"`, `"10"` and `"0"`, `ProgramFromJSON` returns no
error and a program with a bytecode of two elements, compiler version
`2.1.0`, one external entry point with builtins `[RangeCheck, Pedersen]`,
empty `L1Handler` and `Constructor` buckets, and one hints record of index 0
with an empty list. -/
theorem programFromJSON_end_to_end (env : Env)
    (h1 : isOk (env.feltUnmarshal (.str (lit "1"))) = true)
    (h2 : isOk (env.feltUnmarshal (.str (lit "2"))) = true)
    (h10 : isOk (env.feltUnmarshal (.str (lit "10"))) = true)
    (h0 : isOk (env.feltUnmarshal (.str (lit "0"))) = true) :
    render endToEndDoc = lit ("\x7b\"bytecode\":[\"1\",\"2\"],\"compiler_version\":\"2.1.0\"," ++
        "\"entry_points_by_type\":\x7b\"EXTERNAL\":[\x7b\"selector\":\"10\",\"offset\":\"0\"," ++
        "\"builtins\":[\"range_check\",\"pedersen\"]\x7d],\"L1_HANDLER\":[],\"CONSTRUCTOR\":[]\x7d," ++
        "\"hints\":[[0,[]]]\x7d") ∧
    ∃ p, ProgramFromJSON env (some endToEndDoc) = .ret (some p) none ∧
      p.Bytecode.map List.length = some 2 ∧
      p.CompilerVersion = lit "2.1.0" ∧
      bucketBuiltins p.EntryPoints.External = some [some [RangeCheck, Pedersen]] ∧
      p.EntryPoints.L1Handler = some [] ∧
      p.EntryPoints.Constructor = some [] ∧
      p.Hints = some [⟨0, some []⟩] := by
  have hb : ∀ x ∈ sampleBytecode, isOk (env.feltUnmarshal x) = true := by
    intro x hx
    simp only [sampleBytecode, List.mem_cons, List.mem_singleton, List.mem_nil_iff,
      or_false] at hx
    rcases hx with rfl | rfl
    · exact h1
    · exact h2
  have hw : ∀ e ∈ sampleExternal ++ [] ++ [], EntryDoc.otherwiseOk env e := by
    intro e he
    simp only [sampleExternal, List.append_nil, List.mem_singleton] at he
    subst he
    refine ⟨h10, h0, fun raw hr => ?_⟩
    simp at hr
  have hh : ∀ h ∈ sampleHintsDoc,
      (Hints.UnmarshalJSON env (Hints.zero env) (some h)).2 = .ok := by
    intro h hin
    simp only [sampleHintsDoc, List.mem_singleton] at hin
    subst hin
    rfl
  have ha : allBuiltinTokens (sampleExternal ++ [] ++ []) := by
    unfold allBuiltinTokens
    decide
  have hp := (unmarshalProgram_doc env sampleBytecode (lit "2.1.0") sampleExternal [] []
    sampleHintsDoc hb hw hh).1 ha
  refine ⟨by decide, (unmarshalProgram env (some endToEndDoc) (Program.zero env)).val,
    ?_, ?_, ?_, ?_, ?_, ?_, ?_⟩
  · simp only [ProgramFromJSON, endToEndDoc, hp]
  all_goals
    simp only [endToEndDoc, hp]
    try first | rfl | decide

/-- C11 in the sample environment. -/
theorem programFromJSON_end_to_end_witness :
    isOk (sampleEnv.feltUnmarshal (.str (lit "1"))) = true ∧
    (ProgramFromJSON sampleEnv (some endToEndDoc)).err? = none ∧
    ∃ p, ProgramFromJSON sampleEnv (some endToEndDoc) = .ret (some p) none ∧
      p.Bytecode.map List.length = some 2 ∧
      bucketBuiltins p.EntryPoints.External = some [some [RangeCheck, Pedersen]] := by
  obtain ⟨_, p, hp, hb, _, he, _⟩ :=
    programFromJSON_end_to_end sampleEnv (by decide) (by decide) (by decide) (by decide)
  exact ⟨by decide, by rw [hp]; rfl, p, hp, hb, he⟩

/-! ### Encoding a program -/

theorem mapM_error_of_mem {α β : Type} (f : α → Except Err β) :
    ∀ (l : List α), (∃ x ∈ l, isError (f x) = true) → isError (l.mapM f) = true := by
  intro l
  induction l with
  | nil => rintro ⟨x, hx, _⟩; simp at hx
  | cons a t ih =>
    rintro ⟨x, hx, hfx⟩
    cases hfa : f a with
    | error e => rw [List.mapM_cons, hfa]; rfl
    | ok b =>
      rcases List.mem_cons.mp hx with rfl | hxt
      · rw [hfa] at hfx; exact absurd hfx Bool.false_ne_true
      · have := ih ⟨x, hxt, hfx⟩
        cases hm : t.mapM f with
        | error e => rw [List.mapM_cons, hfa, hm]; rfl
        | ok js => rw [hm] at this; exact absurd this Bool.false_ne_true

theorem marshalSlice_error {α : Type} (enc : α → Except Err Json) (l : List α)
    (h : ∃ x ∈ l, isError (enc x) = true) : isError (marshalSlice enc (some l)) = true := by
  have := mapM_error_of_mem enc l h
  unfold marshalSlice
  cases hm : l.mapM enc with
  | error e => simp only [hm]; rfl
  | ok js => rw [hm] at this; exact absurd this Bool.false_ne_true

/-- The text `Builtin.MarshalJSON` returns is never valid JSON: `json.Marshal`
fails on every `Builtin`. -/
theorem marshalBuiltin_error (b : Nat) : marshalBuiltin b = .error .marshalerErr := by
  have hnames : ∀ n ∈ builtinNames, scanJson n = none := by
    have h : ∀ n ∈ builtinNames, (scanJson n).isSome = false := by decide
    intro n hn
    have := h n hn
    cases hs : scanJson n with
    | none => rfl
    | some j => rw [hs] at this; exact absurd this (by simp)
  unfold marshalBuiltin marshalerEncoder
  cases hb : Builtin.MarshalJSON b with
  | error e => rfl
  | ok data =>
    have hmem : data ∈ builtinNames := by
      unfold Builtin.MarshalJSON at hb
      split_ifs at hb <;> (injection hb with hb; subst hb; decide)
    simp only [hnames data hmem]

theorem marshalEntryPointInfo_error (env : Env) (feltMarshal : env.Felt → Except Err Json)
    (e : EntryPointInfo env) (b : Builtin) (bs : List Builtin)
    (hb : e.Builtins = some (b :: bs)) :
    isError (marshalEntryPointInfo env feltMarshal e) = true := by
  have hsl : isError (marshalSlice marshalBuiltin e.Builtins) = true := by
    rw [hb]
    exact marshalSlice_error marshalBuiltin (b :: bs)
      ⟨b, List.mem_cons_self _ _, by rw [marshalBuiltin_error]; rfl⟩
  unfold marshalEntryPointInfo
  cases feltMarshal e.Selector with
  | error x => rfl
  | ok s =>
    cases feltMarshal e.Offset with
    | error x => rfl
    | ok o =>
      cases hm : marshalSlice marshalBuiltin e.Builtins with
      | error x => rfl
      | ok j => rw [hm] at hsl; exact absurd hsl Bool.false_ne_true

theorem marshalBucket_error (env : Env) (feltMarshal : env.Felt → Except Err Json)
    (s : Slice (EntryPointInfo env)) (e : EntryPointInfo env) (b : Builtin) (bs : List Builtin)
    (he : e ∈ s.getD []) (hb : e.Builtins = some (b :: bs)) :
    isError (marshalSlice (marshalEntryPointInfo env feltMarshal) s) = true := by
  cases s with
  | none => simp at he
  | some l =>
    exact marshalSlice_error _ l ⟨e, he, marshalEntryPointInfo_error env feltMarshal e b bs hb⟩

/-- C12, on the code: `json.Marshal` returns an error on every program one of
whose entry points lists at least one builtin, because the text
`Builtin.MarshalJSON` returns is not JSON. -/
theorem program_marshal_fails_with_builtin (env : Env)
    (feltMarshal : env.Felt → Except Err Json) (hintMarshal : env.Hint → Except Err Json)
    (p : Program env) (e : EntryPointInfo env) (b : Builtin) (bs : List Builtin)
    (he : e ∈ p.entryPoints) (hb : e.Builtins = some (b :: bs)) :
    isError (marshalProgram env feltMarshal hintMarshal p) = true := by
  have hept : isError (marshalEntryPointByType env feltMarshal p.EntryPoints) = true := by
    unfold marshalEntryPointByType
    simp only [Program.entryPoints, List.mem_append] at he
    cases h1 : marshalSlice (marshalEntryPointInfo env feltMarshal) p.EntryPoints.External with
    | error x => rfl
    | ok a =>
      cases h2 : marshalSlice (marshalEntryPointInfo env feltMarshal)
          p.EntryPoints.L1Handler with
      | error x => rfl
      | ok b2 =>
        cases h3 : marshalSlice (marshalEntryPointInfo env feltMarshal)
            p.EntryPoints.Constructor with
        | error x => rfl
        | ok c =>
          exfalso
          rcases he with (he | he) | he
          · have := marshalBucket_error env feltMarshal _ e b bs he hb
            rw [h1] at this; exact absurd this Bool.false_ne_true
          · have := marshalBucket_error env feltMarshal _ e b bs he hb
            rw [h2] at this; exact absurd this Bool.false_ne_true
          · have := marshalBucket_error env feltMarshal _ e b bs he hb
            rw [h3] at this; exact absurd this Bool.false_ne_true
  unfold marshalProgram
  cases marshalSlice feltMarshal p.Bytecode with
  | error x => rfl
  | ok bc =>
    cases hm : marshalEntryPointByType env feltMarshal p.EntryPoints with
    | error x => rfl
    | ok ep => rw [hm] at hept; exact absurd hept Bool.false_ne_true

/-- C12 on the end-to-end scenario: the document loads without error, and
encoding the loaded program returns a `MarshalerError`. -/
theorem program_marshal_fails_with_builtin_witness :
    ProgramFromJSON sampleEnv (some endToEndDoc) = .ret (some endToEndProgram) none ∧
    endToEndEntry ∈ endToEndProgram.entryPoints ∧
    isError (marshalProgram sampleEnv sampleFeltMarshal sampleHintMarshal endToEndProgram)
      = true ∧
    marshalProgram sampleEnv sampleFeltMarshal sampleHintMarshal endToEndProgram
      = .error .marshalerErr := by
  have hmem : endToEndEntry ∈ endToEndProgram.entryPoints := by
    simp [Program.entryPoints, endToEndProgram, endToEndEntry]
  exact ⟨rfl, hmem,
    program_marshal_fails_with_builtin sampleEnv sampleFeltMarshal sampleHintMarshal
      endToEndProgram endToEndEntry RangeCheck [Pedersen] hmem rfl, rfl⟩

/-! ### The table of builtins -/

/-- C13: for a discriminant `b` in 1..9 `Builtin.MarshalJSON` returns, without
error, the `b`-th of the nine identifiers; the nine identifiers are pairwise
distinct; they are exactly the strings whose JSON token
`Builtin.UnmarshalJSON` accepts, and the token of the `b`-th one is decoded to
`b`; for `b = 0` or `b > 9` `Builtin.MarshalJSON` returns an error. -/
theorem builtin_marshal_table :
    (∀ b : Nat, 1 ≤ b → b ≤ 9 →
      Builtin.MarshalJSON b = .ok (builtinNames.getD (b - 1) []) ∧
      Builtin.UnmarshalJSON (jsonQuote (builtinNames.getD (b - 1) [])) = .ok b) ∧
    builtinNames.Nodup ∧ builtinNames.length = 9 ∧
    (∀ s : Bytes, isOk (Builtin.UnmarshalJSON (jsonQuote s)) = true ↔
      ∃ b : Nat, 1 ≤ b ∧ b ≤ 9 ∧ Builtin.MarshalJSON b = .ok s) ∧
    (∀ b : Nat, b = 0 ∨ 9 < b → Builtin.MarshalJSON b = .error (.marshalBuiltin b)) := by
  have hm : ∀ b : Nat, 1 ≤ b → b ≤ 9 →
      Builtin.MarshalJSON b = .ok (builtinNames.getD (b - 1) []) ∧
      Builtin.UnmarshalJSON (jsonQuote (builtinNames.getD (b - 1) [])) = .ok b := by
    intro b h1 h9
    interval_cases b <;> exact ⟨rfl, by decide⟩
  refine ⟨hm, by decide, rfl, ?_, ?_⟩
  · intro s
    rw [UnmarshalJSON_jsonQuote_isOk]
    constructor
    · intro hs
      have hall : ∀ n ∈ builtinNames, ∃ b : Nat, 1 ≤ b ∧ b ≤ 9 ∧
          Builtin.MarshalJSON b = .ok n := by
        intro n hn
        simp only [builtinNames, List.mem_cons, List.mem_singleton, List.mem_nil_iff,
          or_false] at hn
        rcases hn with rfl | rfl | rfl | rfl | rfl | rfl | rfl | rfl | rfl
        · exact ⟨1, by decide, by decide, rfl⟩
        · exact ⟨2, by decide, by decide, rfl⟩
        · exact ⟨3, by decide, by decide, rfl⟩
        · exact ⟨4, by decide, by decide, rfl⟩
        · exact ⟨5, by decide, by decide, rfl⟩
        · exact ⟨6, by decide, by decide, rfl⟩
        · exact ⟨7, by decide, by decide, rfl⟩
        · exact ⟨8, by decide, by decide, rfl⟩
        · exact ⟨9, by decide, by decide, rfl⟩
      exact hall s hs
    · rintro ⟨b, h1, h9, hb⟩
      have hmem : ∀ c : Nat, 1 ≤ c → c ≤ 9 →
          ∀ t, Builtin.MarshalJSON c = .ok t → t ∈ builtinNames := by
        intro c hc1 hc9 t ht
        rw [(hm c hc1 hc9).1] at ht
        injection ht with ht
        subst ht
        interval_cases c <;> decide
      exact hmem b h1 h9 s hb
  · intro b hb
    have h : b ≠ 1 ∧ b ≠ 2 ∧ b ≠ 3 ∧ b ≠ 4 ∧ b ≠ 5 ∧ b ≠ 6 ∧ b ≠ 7 ∧ b ≠ 8 ∧ b ≠ 9 := by omega
    obtain ⟨a1, a2, a3, a4, a5, a6, a7, a8, a9⟩ := h
    simp only [Builtin.MarshalJSON, Output, RangeCheck, Pedersen, ECDSA, Keccak, Bitwise, ECOP,
      Poseidon, SegmentArena, a1, a2, a3, a4, a5, a6, a7, a8, a9, if_false]

/-! ### Encoding a hint record -/

theorem digitsVal_snoc (xs : Bytes) (d : Nat) :
    digitsVal (xs ++ [d]) = digitsVal xs * 10 + (d - 48) := by
  simp [digitsVal, List.foldl_append]

theorem natDigitsAux_acc : ∀ (f n : Nat) (acc : Bytes), n < f →
    natDigitsAux f n acc = natDigitsAux f n [] ++ acc := by
  intro f
  induction f with
  | zero => intro n acc h; omega
  | succ f ih =>
    intro n acc h
    simp only [natDigitsAux]
    split_ifs with h10
    · rfl
    · rw [ih (n / 10) _ (by omega), ih (n / 10) [48 + n % 10] (by omega)]
      simp

/-- The digits written for a number: decimal digits, no leading zero, and they
read back as the number. -/
theorem natDigitsAux_spec : ∀ (f n : Nat), n < f →
    digitsVal (natDigitsAux f n []) = n ∧ (∀ b ∈ natDigitsAux f n [], isDigit b = true) ∧
    (∃ d t, natDigitsAux f n [] = d :: t ∧ d ≠ 45 ∧ (d = 48 → t = [])) := by
  intro f
  induction f with
  | zero => intro n h; omega
  | succ f ih =>
    intro n h
    simp only [natDigitsAux]
    split_ifs with h10
    · refine ⟨?_, ?_, 48 + n, [], rfl, by omega, fun _ => rfl⟩
      · simp [digitsVal]
      · intro b hb
        simp only [List.mem_singleton] at hb
        subst hb
        simp only [isDigit, Bool.and_eq_true, decide_eq_true_eq]
        omega
    · have hlt : n / 10 < f := by omega
      obtain ⟨hv, hd, d, t, hdt, hd45, hd48⟩ := ih (n / 10) hlt
      rw [natDigitsAux_acc f (n / 10) _ hlt]
      refine ⟨?_, ?_, d, t ++ [48 + n % 10], by rw [hdt]; rfl, hd45, ?_⟩
      · rw [digitsVal_snoc, hv]; omega
      · intro b hb
        rcases List.mem_append.mp hb with hb | hb
        · exact hd b hb
        · simp only [List.mem_singleton] at hb
          subst hb
          simp only [isDigit, Bool.and_eq_true, decide_eq_true_eq]
          omega
      · intro h48
        exfalso
        have ht := hd48 h48
        rw [hdt, h48, ht] at hv
        simp [digitsVal] at hv
        omega

theorem span_isDigit_all : ∀ (ds : Bytes), (∀ b ∈ ds, isDigit b = true) →
    ds.span isDigit = (ds, []) := by
  intro ds h
  rw [List.span_eq_take_drop, List.takeWhile_eq_self_iff.mpr h,
    List.dropWhile_eq_nil_iff.mpr h]

/-- The literal written for a `uint64` is a number literal that reads back as the number. -/
theorem parseNumLit_natDigits (n : Nat) : parseNumLit (natDigits n) = some ⟨false, n, 0⟩ := by
  obtain ⟨hv, hd, d, t, hdt, hd45, hd48⟩ := natDigitsAux_spec (n + 1) n (Nat.lt_succ_self n)
  have hs := span_isDigit_all _ hd
  unfold natDigits
  rw [hdt] at hs hv hd ⊢
  unfold parseNumLit
  split
  rename_i x sgn r1 heq
  have hm : sgn = false ∧ r1 = d :: t := by
    split at heq
    · rename_i heq2
      simp only [List.cons.injEq] at heq2
      exact absurd heq2.1 hd45
    · simp only [Prod.mk.injEq] at heq
      exact ⟨heq.1.symm, heq.2.symm⟩
  obtain ⟨rfl, rfl⟩ := hm
  have hlead : ¬ ((d :: t).length > 1 ∧ (d :: t).head? = some 48) := by
    rintro ⟨h1, h2⟩
    simp only [List.head?_cons, Option.some.injEq] at h2
    have := hd48 h2
    subst this
    simp at h1
  simp only [hs, List.cons_ne_nil, if_false, Bool.and_eq_true, decide_eq_true_eq, hlead,
    Bool.not_true, Bool.false_eq_true, List.append_nil, hv, List.length_nil, Int.natCast_zero,
    neg_zero, CharP.cast_eq_zero]

theorem mapM_ok_of_all {α β : Type} (f : α → Except Err β) :
    ∀ (l : List α), (∀ x ∈ l, isOk (f x) = true) →
      ∃ js, l.mapM f = .ok js ∧ js.length = l.length := by
  intro l
  induction l with
  | nil => intro _; exact ⟨[], rfl, rfl⟩
  | cons a t ih =>
    intro h
    obtain ⟨js, hjs, hlen⟩ := ih (fun x hx => h x (List.mem_cons_of_mem _ hx))
    have ha := h a (List.mem_cons_self _ _)
    cases hfa : f a with
    | error e => simp [hfa, isOk] at ha
    | ok b =>
      refine ⟨b :: js, ?_, by simp [hlen]⟩
      simp only [List.mapM_cons, hfa, hjs, bind, Except.bind, pure, Except.pure]

/-- C14: when every hint of the list is encoded without error, `Hints.MarshalJSON`
returns without error an array of exactly two elements: the index as an
integer literal that reads back as the index, then the encoding of the hint
list, `null` for the nil slice and else the array of the encoded hints in
order.  The method only reads its receiver: the result is a function of it. -/
theorem hints_marshal_shape (env : Env) (hintMarshal : env.Hint → Except Err Json)
    (hints : Hints env) (h : ∀ x ∈ hints.Hints.getD [], isOk (hintMarshal x) = true) :
    ∃ enc, Hints.MarshalJSON env hintMarshal hints
        = .ok (.arr [.num (natDigits hints.Index), enc]) ∧
      parseNumLit (natDigits hints.Index) = some ⟨false, hints.Index, 0⟩ ∧
      (hints.Hints = none → enc = .null) ∧
      (∀ l, hints.Hints = some l →
        ∃ js, l.mapM hintMarshal = .ok js ∧ js.length = l.length ∧ enc = .arr js) := by
  cases hh : hints.Hints with
  | none =>
    refine ⟨.null, ?_, parseNumLit_natDigits _, fun _ => rfl, fun l hl => by simp at hl⟩
    simp only [Hints.MarshalJSON, marshalHintList, hh]
  | some l =>
    rw [hh] at h
    obtain ⟨js, hjs, hlen⟩ := mapM_ok_of_all hintMarshal l h
    refine ⟨.arr js, ?_, parseNumLit_natDigits _, fun hn => by simp at hn, fun l2 hl2 => ?_⟩
    · simp only [Hints.MarshalJSON, marshalHintList, hh, hjs, Except.map]
    · simp only [Option.some.injEq] at hl2
      subst hl2
      exact ⟨js, hjs, hlen, rfl⟩

/-- C14 on the record of index 7 with an empty hint list. -/
theorem hints_marshal_shape_witness :
    (∀ x ∈ (some ([] : List Nat)).getD [], isOk ((fun _ => Except.ok Json.null : Nat →
      Except Err Json) x) = true) ∧
    ∃ enc, Hints.MarshalJSON sampleEnv (fun _ => .ok .null) ⟨7, some []⟩
      = .ok (.arr [.num (natDigits 7), enc]) :=
  ⟨by decide, by
    obtain ⟨enc, h, _⟩ := hints_marshal_shape sampleEnv (fun _ => .ok .null) ⟨7, some []⟩
      (by decide)
    exact ⟨enc, h⟩⟩

/-! ### Documents with missing keys -/

/-- C15: a well-formed program document whose `entry_points_by_type` object has
the key `EXTERNAL` only loads without error: `External` is the decoded list, and
`L1Handler` and `Constructor` are left nil, of length 0; a well-formed document
without the key `compiler_version` loads without error with the empty string
as `CompilerVersion`. -/
theorem program_missing_keys (env : Env) (bytecode : List Json) (version : Bytes)
    (ext l1 ctor : List EntryDoc) (hints : List Json)
    (hb : ∀ x ∈ bytecode, isOk (env.feltUnmarshal x) = true)
    (hw : ∀ e ∈ ext ++ l1 ++ ctor, EntryDoc.otherwiseOk env e)
    (ha : allBuiltinTokens (ext ++ l1 ++ ctor))
    (hh : ∀ h ∈ hints, (Hints.UnmarshalJSON env (Hints.zero env) (some h)).2 = .ok) :
    (∃ p, ProgramFromJSON env (some (externalOnlyDoc bytecode version ext hints))
        = .ret (some p) none ∧
      p.EntryPoints.External = some (ext.map (EntryDoc.decoded env)) ∧
      p.EntryPoints.L1Handler = none ∧ sliceLen p.EntryPoints.L1Handler = 0 ∧
      p.EntryPoints.Constructor = none ∧ sliceLen p.EntryPoints.Constructor = 0 ∧
      p.Bytecode = some (bytecode.map (feltValue env)) ∧ p.CompilerVersion = version ∧
      p.Hints = some (hints.map (hintsValue env))) ∧
    (∃ p, ProgramFromJSON env (some (noVersionDoc bytecode ext l1 ctor hints))
        = .ret (some p) none ∧
      p.CompilerVersion = [] ∧
      p.EntryPoints = ⟨some (ext.map (EntryDoc.decoded env)),
        some (l1.map (EntryDoc.decoded env)), some (ctor.map (EntryDoc.decoded env))⟩ ∧
      p.Bytecode = some (bytecode.map (feltValue env)) ∧
      p.Hints = some (hints.map (hintsValue env))) := by
  have hw1 : ∀ e ∈ ext, EntryDoc.otherwiseOk env e :=
    fun e he => hw e (List.mem_append.mpr (Or.inl (List.mem_append.mpr (Or.inl he))))
  have ha1 : allBuiltinTokens ext :=
    ((allBuiltinTokens_append _ _).mp ((allBuiltinTokens_append _ _).mp ha).1).1
  have hE : unmarshalProgram env (some (externalOnlyDoc bytecode version ext hints))
      (Program.zero env)
      = ⟨⟨some (bytecode.map (feltValue env)), version,
          ⟨some (ext.map (EntryDoc.decoded env)), none, none⟩,
          some (hints.map (hintsValue env))⟩, none, none⟩ := by
    simp only [unmarshalProgram, externalOnlyDoc, decodeStruct, decodeMembers,
      stepProgram_bytecode, stepProgram_version, stepProgram_entryPoints, stepProgram_hints,
      Program.zero, decodeBytecode_ok env bytecode none hb, decodeString,
      stepEntryPointByType_external, decodeEntryPoints_ok env ext none hw1 ha1,
      decodeHintsList_ok env hints none hh]
  have hgood := (decodeByType_doc env ext l1 ctor none hw).1 ha
  have hN : unmarshalProgram env (some (noVersionDoc bytecode ext l1 ctor hints))
      (Program.zero env)
      = ⟨⟨some (bytecode.map (feltValue env)), [],
          ⟨some (ext.map (EntryDoc.decoded env)), some (l1.map (EntryDoc.decoded env)),
            some (ctor.map (EntryDoc.decoded env))⟩,
          some (hints.map (hintsValue env))⟩, none, none⟩ := by
    simp only [unmarshalProgram, noVersionDoc, decodeStruct, decodeMembers,
      stepProgram_bytecode, stepProgram_entryPoints, stepProgram_hints,
      Program.zero, decodeBytecode_ok env bytecode none hb] at hgood ⊢
    simp only [hgood, decodeHintsList_ok env hints none hh]
  constructor
  · refine ⟨(unmarshalProgram env (some (externalOnlyDoc bytecode version ext hints))
      (Program.zero env)).val, ?_, ?_⟩
    · simp only [ProgramFromJSON, hE]
    · rw [hE]; exact ⟨rfl, rfl, rfl, rfl, rfl, rfl, rfl, rfl⟩
  · refine ⟨(unmarshalProgram env (some (noVersionDoc bytecode ext l1 ctor hints))
      (Program.zero env)).val, ?_, ?_⟩
    · simp only [ProgramFromJSON, hN]
    · rw [hN]; exact ⟨rfl, rfl, rfl, rfl⟩

/-- C15 on the documents of the end-to-end scenario. -/
theorem program_missing_keys_witness :
    allBuiltinTokens (sampleExternal ++ [] ++ []) ∧
    (∃ p, ProgramFromJSON sampleEnv
        (some (externalOnlyDoc sampleBytecode (lit "2.1.0") sampleExternal sampleHintsDoc))
          = .ret (some p) none ∧ sliceLen p.EntryPoints.L1Handler = 0 ∧
        sliceLen p.EntryPoints.Constructor = 0) ∧
    (∃ p, ProgramFromJSON sampleEnv
        (some (noVersionDoc sampleBytecode sampleExternal [] [] sampleHintsDoc))
          = .ret (some p) none ∧ p.CompilerVersion = []) := by
  have hb : ∀ x ∈ sampleBytecode, isOk (sampleEnv.feltUnmarshal x) = true := by decide
  have hh : ∀ h ∈ sampleHintsDoc,
      (Hints.UnmarshalJSON sampleEnv (Hints.zero sampleEnv) (some h)).2 = .ok := by decide
  have hw : ∀ e ∈ sampleExternal ++ [] ++ [], EntryDoc.otherwiseOk sampleEnv e := by
    intro e he
    simp only [sampleExternal, List.append_nil, List.mem_singleton] at he
    subst he
    refine ⟨by decide, by decide, fun raw hr => ?_⟩
    simp at hr
  have ha : allBuiltinTokens (sampleExternal ++ [] ++ []) := by
    unfold allBuiltinTokens
    decide
  obtain ⟨⟨p, hp, _, _, h3, _, h5, _⟩, ⟨q, hq, hv, _⟩⟩ :=
    program_missing_keys sampleEnv sampleBytecode (lit "2.1.0") sampleExternal [] []
      sampleHintsDoc hb hw ha hh
  exact ⟨ha, ⟨p, hp, h3, h5⟩, ⟨q, hq, hv⟩⟩

/-! ### Integer indices -/

theorem log2Fuel_spec : ∀ (f x : Nat), 0 < x → x ≤ f →
    2 ^ log2Fuel f x ≤ x ∧ x < 2 ^ (log2Fuel f x + 1) := by
  intro f
  induction f with
  | zero => intro x h1 h2; omega
  | succ f ih =>
    intro x h1 h2
    simp only [log2Fuel]
    split_ifs with hx
    · obtain ⟨ha, hb⟩ := ih (x / 2) (by omega) (by omega)
      rw [pow_succ] at hb ⊢
      rw [pow_succ]
      constructor <;> omega
    · have : x = 1 := by omega
      subst this
      simp

theorem floorLog2_spec (x : Nat) (h : 0 < x) :
    2 ^ floorLog2 x ≤ x ∧ x < 2 ^ (floorLog2 x + 1) :=
  log2Fuel_spec x x h (Nat.le_refl x)

/-- A literal that denotes a natural number below `2 ^ 53` is read as a
`float64` of exactly that value. -/
theorem roundToF64_exact (l : NumLit) (n : Nat) (hd : l.denotes n) (hn : n < 2 ^ 53) :
    ∃ k : Nat, roundToF64 l = some ⟨l.neg, n * 2 ^ k, -(k : Int)⟩ := by
  obtain ⟨hneg, hval⟩ := hd
  unfold roundToF64
  by_cases hm : l.mant = 0
  · rw [if_pos hm]
    refine ⟨0, ?_⟩
    have hn0 : n = 0 := by
      split_ifs at hval with he
      · rw [hm] at hval; omega
      · rw [hm] at hval
        have hp : 0 < 10 ^ (-l.exp10).toNat := Nat.pow_pos (by decide)
        rcases Nat.eq_zero_or_pos n with h0 | h0
        · exact h0
        · have := Nat.mul_pos h0 hp
          omega
    subst hn0
    simp
  · rw [if_neg hm]
    dsimp only
    generalize hN : (if l.exp10 ≥ 0 then l.mant * 10 ^ l.exp10.toNat else l.mant) = N
    generalize hD : (if l.exp10 ≥ 0 then 1 else 10 ^ (-l.exp10).toNat) = D
    have hDpos : 0 < D := by
      rw [← hD]
      split_ifs
      · decide
      · exact Nat.pow_pos (by decide)
    have hND : N = n * D := by
      rw [← hN, ← hD]
      split_ifs at hval ⊢ with he
      · rw [hval]; simp
      · exact hval
    have hnpos : 0 < n := by
      rcases Nat.eq_zero_or_pos n with h0 | h0
      · exfalso
        subst h0
        split_ifs at hval with he
        · have hp : 0 < 10 ^ l.exp10.toNat := Nat.pow_pos (by decide)
          have := Nat.mul_pos (Nat.pos_of_ne_zero hm) hp
          omega
        · simp at hval; exact hm hval
      · exact h0
    have hNpos : 0 < N := by rw [hND]; exact Nat.mul_pos hnpos hDpos
    generalize hc : ((floorLog2 N : Int) - (floorLog2 D : Int)) = c
    generalize hge : (if c ≥ 0 then decide (D * 2 ^ c.toNat ≤ N)
      else decide (D ≤ N * 2 ^ (-c).toNat)) = ge
    generalize he2 : (if ge = true then c else c - 1) = e2
    generalize hq : (e2 - 52) ⊔ -1074 = q
    have hc53 : c ≤ 53 := by
      obtain ⟨hN1, _⟩ := floorLog2_spec N hNpos
      obtain ⟨_, hD2⟩ := floorLog2_spec D hDpos
      have h1 : 2 ^ floorLog2 N < 2 ^ (floorLog2 D + 1 + 53) := by
        calc 2 ^ floorLog2 N ≤ N := hN1
          _ = n * D := hND
          _ < 2 ^ 53 * 2 ^ (floorLog2 D + 1) :=
            Nat.mul_lt_mul'' hn hD2
          _ = 2 ^ (floorLog2 D + 1 + 53) := by rw [← pow_add, Nat.add_comm]
      have h2 := (Nat.pow_lt_pow_iff_right (by decide : 1 < 2)).mp h1
      omega
    have he52 : e2 ≤ 52 := by
      rw [← he2]
      cases hgev : ge with
      | false => simp only [Bool.false_eq_true, if_false]; omega
      | true =>
        simp only [if_true]
        by_cases hc0 : c ≥ 0
        · rw [hgev, if_pos hc0, decide_eq_true_eq, hND, Nat.mul_comm n D] at hge
          have h1 : 2 ^ c.toNat ≤ n := Nat.le_of_mul_le_mul_left hge hDpos
          have h2 : 2 ^ c.toNat < 2 ^ 53 := lt_of_le_of_lt h1 hn
          have h3 := (Nat.pow_lt_pow_iff_right (by decide : 1 < 2)).mp h2
          omega
        · omega
    have hq0 : q ≤ 0 := by rw [← hq]; exact max_le (by omega) (by decide)
    have hq1 : -1074 ≤ q := by rw [← hq]; exact le_max_right _ _
    refine ⟨(-q).toNat, ?_⟩
    have hqk : q = -(((-q).toNat : Nat) : Int) := by omega
    generalize hk : (-q).toNat = k at hqk ⊢
    have hA : (if q ≥ 0 then N else N * 2 ^ k) = n * 2 ^ k * D := by
      split_ifs with h0
      · have : k = 0 := by omega
        subst this
        rw [hND]; simp
      · rw [hND]; ring
    have hB : (if q ≥ 0 then D * 2 ^ q.toNat else D) = D := by
      split_ifs with h0
      · have : q.toNat = 0 := by omega
        rw [this]; simp
      · rfl
    rw [hA, hB]
    have hmod : n * 2 ^ k * D % D = 0 := Nat.mul_mod_left _ _
    have hdiv : n * 2 ^ k * D / D = n * 2 ^ k := Nat.mul_div_cancel _ hDpos
    rw [hmod, hdiv]
    have h971 : ¬ q > 971 := by omega
    have h971b : ¬ q = 971 := by omega
    have hD0 : ¬ 2 * 0 > D := by omega
    have hD1 : ¬ 2 * 0 = D := by omega
    simp only [h971, h971b, hD0, hD1, decide_False, Bool.false_and, Bool.or_self,
      Bool.false_eq_true, if_false]
    rw [← hqk]

theorem float64ToUint64_exact (oor : F64 → Nat) (n k : Nat) (hn : n < 2 ^ 53) :
    float64ToUint64 oor ⟨false, n * 2 ^ k, -(k : Int)⟩ = n := by
  have h64 : n < 2 ^ 64 := lt_trans hn (by decide)
  have ht : truncF64 ⟨false, n * 2 ^ k, -(k : Int)⟩ = n := by
    unfold truncF64
    simp only [neg_neg, Int.toNat_ofNat]
    split_ifs with h0
    · have hk : k = 0 := by omega
      subst hk
      simp
    · exact Nat.mul_div_cancel _ (Nat.pow_pos (by decide))
  simp only [float64ToUint64, ht, Bool.false_eq_true, if_false, h64, if_true]

/-- The values `arrayInterface` builds are those of the elements, in order. -/
theorem arrayInterface_fst (ys : List Json) :
    (arrayInterface ys).1 = ys.map (fun y => (valueInterface y).1) := by
  induction ys with
  | nil => rfl
  | cons y t ih => simp only [arrayInterface, List.map_cons, ih]

/-- A list whose elements decode one by one decodes to the list of the results. -/
theorem mapM_ok_of_forall2 {α β : Type} (f : α → Except Err β) :
    ∀ (l : List α) (r : List β), List.Forall₂ (fun a b => f a = .ok b) l r →
      l.mapM f = .ok r := by
  intro l r h
  induction h with
  | nil => rfl
  | cons hab _ ih =>
    simp only [List.mapM_cons, hab, ih, bind, Except.bind, pure, Except.pure]

/-- C16: on `[x, L]` with `x` a number literal that denotes a natural number `n`
below `2 ^ 53` (written with or without fraction digits or exponent) and `L` an
array whose elements `ys` each decode as a `Hint` (and hold no number beyond
the range of `float64`), `Hints.UnmarshalJSON` returns no error and stores
exactly `n` in `Index` and, in `Hints`, the list of the decoded elements of
`L`, one for each element and in the order of `L`; on `[x, null]` it stores
`n` and the nil slice. -/
theorem hints_unmarshal_integer_index (env : Env) (hints : Hints env) (raw : Bytes)
    (l : NumLit) (n : Nat) (ys : List Json) (hs : List env.Hint)
    (hl : parseNumLit raw = some l) (hd : l.denotes n) (hn : n < 2 ^ 53)
    (hys : (arrayInterface ys).2 = false)
    (hh : List.Forall₂ (fun y h => env.hintUnmarshal (valueInterface y).1 = .ok h) ys hs) :
    Hints.UnmarshalJSON env hints (some (.arr [.num raw, .arr ys])) = (⟨n, some hs⟩, .ok) ∧
    Hints.UnmarshalJSON env hints (some (.arr [.num raw, .null])) = (⟨n, none⟩, .ok) := by
  obtain ⟨k, hk⟩ := roundToF64_exact l n hd hn
  have hv : valueInterface (.num raw) = (.float ⟨false, n * 2 ^ k, -(k : Int)⟩, false) := by
    rw [hd.1] at hk
    simp only [valueInterface, hl, Option.some_bind, hk]
  have hm : (arrayInterface ys).1.mapM env.hintUnmarshal = .ok hs := by
    rw [arrayInterface_fst]
    apply mapM_ok_of_forall2
    exact (List.forall₂_map_left_iff).mpr hh
  have ha : valueInterface (.arr ys) = (.arr (arrayInterface ys).1, (arrayInterface ys).2) := by
    simp only [valueInterface]
  have hnull : valueInterface .null = (.nil, false) := by simp only [valueInterface]
  constructor
  · simp only [Hints.UnmarshalJSON, unmarshalRawHints, arrayInterface, hv, ha, hys,
      Bool.or_false, Bool.false_eq_true, if_false, Option.getD_some, unmarshalHintList, hm,
      Except.map, float64ToUint64_exact _ n k hn]
  · simp only [Hints.UnmarshalJSON, unmarshalRawHints, arrayInterface, hv, hnull,
      Bool.or_false, Bool.false_eq_true, if_false, Option.getD_some, unmarshalHintList,
      float64ToUint64_exact _ n k hn]

/-- C16 on `[5.0, [{}, {"a": null}]]`, the two hints decoding to 0 and 1. -/
theorem hints_unmarshal_integer_index_witness :
    parseNumLit (lit "5.0") = some ⟨false, 50, -1⟩ ∧ NumLit.denotes ⟨false, 50, -1⟩ 5 ∧
    (arrayInterface [.obj [], .obj [(lit "a", .null)]]).2 = false ∧
    List.Forall₂ (fun y h => countingEnv.hintUnmarshal (valueInterface y).1 = .ok h)
      [.obj [], .obj [(lit "a", .null)]] ([0, 1] : List Nat) ∧
    Hints.UnmarshalJSON countingEnv ⟨7, none⟩
        (some (.arr [.num (lit "5.0"), .arr [.obj [], .obj [(lit "a", .null)]]]))
      = (⟨5, some ([0, 1] : List Nat)⟩, .ok) ∧
    Hints.UnmarshalJSON countingEnv ⟨7, none⟩ (some (.arr [.num (lit "5.0"), .null]))
      = (⟨5, none⟩, .ok) := by
  have hd : NumLit.denotes ⟨false, 50, -1⟩ 5 := ⟨rfl, by decide⟩
  have hf : List.Forall₂ (fun y h => countingEnv.hintUnmarshal (valueInterface y).1 = .ok h)
      [.obj [], .obj [(lit "a", .null)]] ([0, 1] : List Nat) :=
    List.Forall₂.cons rfl (List.Forall₂.cons rfl List.Forall₂.nil)
  exact ⟨by decide, hd, by decide, hf,
    hints_unmarshal_integer_index countingEnv ⟨7, none⟩ (lit "5.0") ⟨false, 50, -1⟩ 5
      [.obj [], .obj [(lit "a", .null)]] ([0, 1] : List Nat) (by decide) hd (by decide) (by decide) hf⟩

/-! ### Loading from a file, and the receiver of the hint decoder -/

/-- C17: with `os.ReadFile` as a function to content or error, `ProgramFromFile`
returns a nil program with the read error when the read fails, whatever
`ProgramFromJSON` would do, and exactly what `ProgramFromJSON` returns on the
content when the read succeeds. -/
theorem programFromFile_spec (env : Env) (readFile : Bytes → Except Err (Option Json))
    (pathToFile : Bytes) :
    (∀ e, readFile pathToFile = .error e →
      ProgramFromFile env readFile pathToFile = .ret none (some e)) ∧
    (∀ content, readFile pathToFile = .ok content →
      ProgramFromFile env readFile pathToFile = ProgramFromJSON env content) := by
  constructor
  · intro e h
    simp only [ProgramFromFile, h]
  · intro content h
    simp only [ProgramFromFile, h]

/-- C18: on a two-element array whose element 0 is not a number,
`Hints.UnmarshalJSON` returns an error and leaves the receiver, `Index`
included, as it was. -/
theorem hints_unmarshal_non_number_index (env : Env) (hints : Hints env) (x0 x1 : Json)
    (h : ∀ raw, x0 ≠ .num raw) :
    ∃ e, Hints.UnmarshalJSON env hints (some (.arr [x0, x1])) = (hints, .err e) := by
  have hnf : ∀ f, (valueInterface x0).1 ≠ .float f := by
    intro f
    cases x0 with
    | num raw => exact absurd rfl (h raw)
    | null => simp [valueInterface]
    | bool b => simp [valueInterface]
    | str s => simp [valueInterface]
    | arr xs => simp [valueInterface]
    | obj kvs => simp [valueInterface]
  simp only [Hints.UnmarshalJSON, unmarshalRawHints, arrayInterface, Bool.or_false]
  cases hs : ((valueInterface x0).2 || (valueInterface x1).2) with
  | true => exact ⟨.typeErr, rfl⟩
  | false =>
    simp only [Bool.false_eq_true, if_false, Option.getD_some]
    cases hv : (valueInterface x0).1 with
    | float f => exact absurd hv (hnf f)
    | nil => exact ⟨.hintIndex, rfl⟩
    | bool b => exact ⟨.hintIndex, rfl⟩
    | str s => exact ⟨.hintIndex, rfl⟩
    | arr xs => exact ⟨.hintIndex, rfl⟩
    | map kvs => exact ⟨.hintIndex, rfl⟩

/-- C18 on `["5", []]`. -/
theorem hints_unmarshal_non_number_index_witness :
    (∀ raw, Json.str (lit "5") ≠ .num raw) ∧
    ∃ e, Hints.UnmarshalJSON sampleEnv ⟨7, none⟩ (some (.arr [.str (lit "5"), .arr []]))
      = (⟨7, none⟩, .err e) :=
  ⟨fun _ h => Json.noConfusion h,
    hints_unmarshal_non_number_index sampleEnv ⟨7, none⟩ _ _ (fun _ h => Json.noConfusion h)⟩

/-- C19, counterexample: on `[5, "x"]` the call returns a type error for element 1,
after `Index` of the receiver went from 0 to 5. -/
theorem hints_unmarshal_error_changes_index :
    sampleHintsView (Hints.UnmarshalJSON sampleEnv (Hints.zero sampleEnv)
        (some (.arr [.num (lit "5"), .str (lit "x")]))).1 = (5, none) ∧
      (Hints.UnmarshalJSON sampleEnv (Hints.zero sampleEnv)
        (some (.arr [.num (lit "5"), .str (lit "x")]))).2 = .err .typeErr ∧
      sampleHintsView (Hints.zero sampleEnv) = (0, none) := by
  decide

/-- C19, amended: when `Hints.UnmarshalJSON` returns an error the field `Hints` of
the receiver keeps its value; `Index` keeps its value too, unless element 0 is
a number in the range of `float64` and the error comes from element 1: `Index`
then holds the conversion of element 0. -/
theorem hints_unmarshal_error_frame (env : Env) (hints : Hints env) (data : Option Json)
    (e : Err) (h : (Hints.UnmarshalJSON env hints data).2 = .err e) :
    (Hints.UnmarshalJSON env hints data).1.Hints = hints.Hints ∧
    ((Hints.UnmarshalJSON env hints data).1.Index = hints.Index ∨
      ∃ x0 x1 rest f, data = some (.arr (x0 :: x1 :: rest)) ∧
        (valueInterface x0).1 = .float f ∧
        unmarshalHintList env (valueInterface x1).1 = .error e ∧
        (Hints.UnmarshalJSON env hints data).1.Index = float64ToUint64 env.outOfRange f) := by
  unfold Hints.UnmarshalJSON at h ⊢
  cases hr : unmarshalRawHints data with
  | mk raw err =>
    cases err with
    | some e1 => simp [hr]
    | none =>
      simp only [hr] at h ⊢
      cases hraw : raw.getD [] with
      | nil => simp [hraw] at h
      | cons y0 ys =>
        simp only [hraw] at h ⊢
        cases y0 with
        | float f =>
          simp only at h ⊢
          cases ys with
          | nil => simp at h
          | cons y1 ys1 =>
            simp only at h ⊢
            cases hu : unmarshalHintList env y1 with
            | ok hl => simp [hu] at h
            | error e2 =>
              simp only [hu, Outcome.err.injEq] at h ⊢
              subst h
              refine ⟨by first | rfl | trivial, Or.inr ?_⟩
              -- the raw slice comes from an array of the document
              cases data with
              | none => simp [unmarshalRawHints] at hr
              | some j =>
                cases j with
                | arr xs =>
                  simp only [unmarshalRawHints, Prod.mk.injEq] at hr
                  obtain ⟨hr1, _⟩ := hr
                  subst hr1
                  simp only [Option.getD_some] at hraw
                  cases xs with
                  | nil => simp [arrayInterface] at hraw
                  | cons x0 xs1 =>
                    cases xs1 with
                    | nil => simp [arrayInterface] at hraw
                    | cons x1 rest =>
                      simp only [arrayInterface, List.cons.injEq] at hraw
                      obtain ⟨h0, h1, _⟩ := hraw
                      exact ⟨x0, x1, rest, f, rfl, h0, by rw [h1]; exact hu, rfl⟩
                | null =>
                  simp only [unmarshalRawHints, Prod.mk.injEq] at hr
                  obtain ⟨hr1, _⟩ := hr
                  subst hr1
                  simp at hraw
                | bool b => simp [unmarshalRawHints] at hr
                | num r => simp [unmarshalRawHints] at hr
                | str s => simp [unmarshalRawHints] at hr
                | obj kvs => simp [unmarshalRawHints] at hr
        | nil => exact ⟨rfl, Or.inl rfl⟩
        | bool b => exact ⟨rfl, Or.inl rfl⟩
        | str s => exact ⟨rfl, Or.inl rfl⟩
        | arr xs => exact ⟨rfl, Or.inl rfl⟩
        | map kvs => exact ⟨rfl, Or.inl rfl⟩

/-- C19, amended, on `[5, "x"]`. -/
theorem hints_unmarshal_error_frame_witness :
    (Hints.UnmarshalJSON sampleEnv (Hints.zero sampleEnv)
        (some (.arr [.num (lit "5"), .str (lit "x")]))).2 = .err .typeErr ∧
    (Hints.UnmarshalJSON sampleEnv (Hints.zero sampleEnv)
        (some (.arr [.num (lit "5"), .str (lit "x")]))).1.Hints = (Hints.zero sampleEnv).Hints :=
  ⟨by decide,
    (hints_unmarshal_error_frame sampleEnv (Hints.zero sampleEnv)
      (some (.arr [.num (lit "5"), .str (lit "x")])) .typeErr (by decide)).1⟩

/-- A text whose first byte begins no JSON value is rejected by the scanner,
whatever the fuel: the nine identifiers start with such a byte. -/
theorem scanValue_head (fuel c : Nat) (rest : Bytes)
    (hs : ¬ (c = 32 ∨ c = 9 ∨ c = 13 ∨ c = 10))
    (hv : ¬ (c = 123 ∨ c = 91 ∨ c = 34 ∨ c = 116 ∨ c = 102 ∨ c = 110 ∨ c = 45))
    (hd : isDigit c = false) : scanValue fuel (c :: rest) = none := by
  cases fuel with
  | zero => simp [scanValue]
  | succ f =>
    have hsk : skipSpace (c :: rest) = c :: rest := by
      have h1 : ¬ c = 32 := fun h => hs (Or.inl h)
      have h2 : ¬ c = 9 := fun h => hs (Or.inr (Or.inl h))
      have h3 : ¬ c = 13 := fun h => hs (Or.inr (Or.inr (Or.inl h)))
      have h4 : ¬ c = 10 := fun h => hs (Or.inr (Or.inr (Or.inr h)))
      simp [skipSpace, h1, h2, h3, h4]
    have a1 : ¬ c = 123 := fun h => hv (Or.inl h)
    have a2 : ¬ c = 91 := fun h => hv (Or.inr (Or.inl h))
    have a3 : ¬ c = 34 := fun h => hv (Or.inr (Or.inr (Or.inl h)))
    have a4 : ¬ c = 116 := fun h => hv (Or.inr (Or.inr (Or.inr (Or.inl h))))
    have a5 : ¬ c = 102 := fun h => hv (Or.inr (Or.inr (Or.inr (Or.inr (Or.inl h)))))
    have a6 : ¬ c = 110 :=
      fun h => hv (Or.inr (Or.inr (Or.inr (Or.inr (Or.inr (Or.inl h))))))
    have a7 : ¬ c = 45 :=
      fun h => hv (Or.inr (Or.inr (Or.inr (Or.inr (Or.inr (Or.inr h))))))
    simp only [scanValue, hsk, a1, a2, a3, a4, a5, a6, a7, hd, if_false, decide_False,
      Bool.or_self, Bool.false_eq_true]

/-! ### The program returned with an error -/

/-- The array loop on a fresh slice when the elements of `l` decode and the
next element stops the decode: the slice holds the elements decoded, then the
element that was being decoded. -/
theorem decodeArrayLoop_stop {α β : Type} (zero : α) (dec : α → Json → Option Err → Dec α)
    (g : β → Json) (f : β → α) (x : Json) (rest : List Json) (v : α) (e : Err) :
    ∀ (l : List β) (acc : List α) (sv : Option Err),
      (∀ a ∈ l, ∀ sv, dec zero (g a) sv = ⟨f a, sv, none⟩) →
      dec zero x sv = ⟨v, sv, some (.fatal e)⟩ →
      decodeArrayLoop zero dec (l.map g ++ x :: rest) [] acc sv
        = ⟨acc ++ l.map f ++ [v], sv, some (.fatal e)⟩ := by
  intro l
  induction l with
  | nil =>
    intro acc sv _ hx
    simp only [List.map_nil, List.nil_append, decodeArrayLoop, List.headD_nil, hx, List.tail_nil,
      List.append_nil]
  | cons a t ih =>
    intro acc sv h hx
    have ha := h a (List.mem_cons_self _ _) sv
    simp only [List.map_cons, List.cons_append, decodeArrayLoop, List.headD_nil, ha,
      List.tail_nil, List.append_eq]
    rw [ih (acc ++ [f a]) sv (fun b hb => h b (List.mem_cons_of_mem _ hb)) hx]
    simp

/-- The decode of a `builtins` array stops at the first element that is not one
of the nine identifiers: the slice holds the variants decoded before it and a
zero element. -/
theorem decodeBuiltins_stop (env : Env) (pre post : List Json) (x : Json) (e : Err)
    (sv : Option Err) (hpre : ∀ y ∈ pre, isBuiltinToken y = true)
    (hx : Builtin.UnmarshalJSON (render x) = .error e) :
    decodeBuiltins env none (.arr (pre ++ x :: post)) sv
      = ⟨some (pre.map builtinValue ++ [0]), sv, some (.fatal e)⟩ := by
  have hd : decodeBuiltin 0 x sv = ⟨0, sv, some (.fatal e)⟩ := by
    simp only [decodeBuiltin, hx]
  have := decodeArrayLoop_stop (0 : Builtin) decodeBuiltin id builtinValue x post 0 e pre [] sv
    (fun y hy sv => decodeBuiltin_good y (hpre y hy) 0 sv) hd
  simp only [List.map_id, List.nil_append] at this
  simp only [decodeBuiltins, decodeSlice, Option.getD_none, this]

/-- Decoding an entry point object whose field elements decode, given what
the decode of its `builtins` array yields. -/
theorem decodeEntryPointInfo_fields (env : Env) (e : EntryDoc) (sv : Option Err)
    (h1 : isOk (env.feltUnmarshal e.selector) = true)
    (h2 : isOk (env.feltUnmarshal e.offset) = true) :
    decodeEntryPointInfo env (EntryPointInfo.zero env) e.toJson sv =
      ⟨⟨feltValue env e.selector, feltValue env e.offset,
          (decodeBuiltins env none (.arr e.builtins) sv).val⟩,
        (decodeBuiltins env none (.arr e.builtins) sv).saved,
        (decodeBuiltins env none (.arr e.builtins) sv).stop⟩ := by
  simp only [decodeEntryPointInfo, decodeStruct, EntryDoc.toJson, decodeMembers,
    stepEntryPointInfo_selector, stepEntryPointInfo_offset, stepEntryPointInfo_builtins,
    decodeFelt_ok env _ _ _ h1, decodeFelt_ok env _ _ _ h2, EntryPointInfo.zero]
  cases (decodeBuiltins env none (.arr e.builtins) sv).stop <;> rfl

/-- An element that is not one of the nine identifiers is rejected by
`Builtin.UnmarshalJSON`. -/
theorem builtin_unmarshal_rejects (x : Json) (h : isBuiltinToken x = false)
    (hn : ∀ raw, x = .num raw → (parseNumLit raw).isSome = true) :
    ∃ e, Builtin.UnmarshalJSON (render x) = .error e := by
  obtain ⟨e, he⟩ := decodeBuiltin_bad x h hn 0 none
  unfold decodeBuiltin at he
  cases hu : Builtin.UnmarshalJSON (render x) with
  | ok b => simp [hu] at he
  | error e1 => exact ⟨e1, rfl⟩

/-- C9, amended: `ProgramFromJSON` returns the address of its local `Program`
with every error, never nil.  That `Program` is the zero value after a syntax
error (the library checks the whole text before it decodes any of it) and on
a document that is neither an object nor `null`.  It is partially populated
when a builtin is rejected: on a program document, its keys in the order
`bytecode`, `compiler_version`, `entry_points_by_type`, `hints`, whose bytecode
decodes and whose `EXTERNAL` bucket has a first `builtins` element `x` outside
the nine identifiers (in the entry `bad`, after the entries `good` and the
elements `pre`), the error is the one `Builtin.UnmarshalJSON` returns for `x`,
and the `Program` holds the decoded bytecode, the compiler version, the
`EXTERNAL` entries up to and including `bad`, whose `Builtins` holds the
variants decoded before `x` followed by one zero element, and nil `L1Handler`,
`Constructor` and `Hints`. -/
theorem programFromJSON_error_with_pointer (env : Env) :
    (∀ content e, (ProgramFromJSON env content).err? = some e →
      ∃ p, ProgramFromJSON env content = .ret (some p) (some e)) ∧
    ProgramFromJSON env none = .ret (some (Program.zero env)) (some .syntaxErr) ∧
    (∀ j, (∀ kvs, j ≠ .obj kvs) → j ≠ .null →
      ProgramFromJSON env (some j) = .ret (some (Program.zero env)) (some .typeErr)) ∧
    (∀ (bytecode : List Json) (version : Bytes) (good : List EntryDoc) (bad : EntryDoc)
        (rest l1 ctor : List EntryDoc) (hints pre post : List Json) (x : Json),
      (∀ b ∈ bytecode, isOk (env.feltUnmarshal b) = true) →
      (∀ e ∈ good, EntryDoc.otherwiseOk env e) → allBuiltinTokens good →
      isOk (env.feltUnmarshal bad.selector) = true →
      isOk (env.feltUnmarshal bad.offset) = true →
      bad.builtins = pre ++ x :: post → (∀ y ∈ pre, isBuiltinToken y = true) →
      isBuiltinToken x = false → (∀ raw, x = .num raw → (parseNumLit raw).isSome = true) →
      ∃ e, Builtin.UnmarshalJSON (render x) = .error e ∧
        ProgramFromJSON env
            (some (programDoc bytecode version (good ++ bad :: rest) l1 ctor hints))
          = .ret (some ⟨some (bytecode.map (feltValue env)), version,
              ⟨some (good.map (EntryDoc.decoded env) ++
                  [⟨feltValue env bad.selector, feltValue env bad.offset,
                    some (pre.map builtinValue ++ [0])⟩]), none, none⟩,
              none⟩) (some e)) := by
  refine ⟨?_, rfl, ?_, ?_⟩
  · intro content e h
    unfold ProgramFromJSON at h ⊢
    cases hs : (unmarshalProgram env content (Program.zero env)).stop with
    | none =>
      simp only [hs, LoadResult.err?] at h
      exact ⟨(unmarshalProgram env content (Program.zero env)).val, by simp only [hs, h]⟩
    | some st =>
      cases st with
      | panic => simp [hs, LoadResult.err?] at h
      | fatal e1 =>
        simp only [hs, LoadResult.err?, Option.some.injEq] at h
        subst h
        exact ⟨(unmarshalProgram env content (Program.zero env)).val, by simp only [hs]⟩
  · intro j hobj hnull
    cases j with
    | obj kvs => exact absurd rfl (hobj kvs)
    | null => exact absurd rfl hnull
    | bool b => rfl
    | num raw => rfl
    | str t => rfl
    | arr xs => rfl
  · intro bytecode version good bad rest l1 ctor hints pre post x hb hw hg h1 h2 hbl hpre hx hn
    obtain ⟨e, he⟩ := builtin_unmarshal_rejects x hx hn
    refine ⟨e, he, ?_⟩
    have hbad : ∀ sv, decodeEntryPointInfo env (EntryPointInfo.zero env) bad.toJson sv
        = ⟨⟨feltValue env bad.selector, feltValue env bad.offset,
            some (pre.map builtinValue ++ [0])⟩, sv, some (.fatal e)⟩ := by
      intro sv
      rw [decodeEntryPointInfo_fields env bad sv h1 h2, hbl,
        decodeBuiltins_stop env pre post x e sv hpre he]
    have hgood : ∀ a ∈ good, ∀ sv,
        decodeEntryPointInfo env (EntryPointInfo.zero env) a.toJson sv
          = ⟨EntryDoc.decoded env a, sv, none⟩ := by
      intro a ha sv
      rw [decodeEntryPointInfo_toJson env a sv (hw a ha), decodeBuiltins_ok env _ sv (hg a ha)]
      rfl
    have hext : decodeEntryPoints env none
        (.arr ((good ++ bad :: rest).map EntryDoc.toJson)) none
        = ⟨some (good.map (EntryDoc.decoded env) ++
            [⟨feltValue env bad.selector, feltValue env bad.offset,
              some (pre.map builtinValue ++ [0])⟩]), none, some (.fatal e)⟩ := by
      have := decodeArrayLoop_stop (EntryPointInfo.zero env) (decodeEntryPointInfo env)
        EntryDoc.toJson (EntryDoc.decoded env) bad.toJson (rest.map EntryDoc.toJson) _ e
        good [] none hgood (hbad none)
      simp only [List.nil_append] at this
      simp only [decodeEntryPoints, decodeSlice, Option.getD_none, List.map_append,
        List.map_cons, this]
    simp only [ProgramFromJSON, unmarshalProgram, programDoc, decodeStruct, decodeMembers,
      stepProgram_bytecode, stepProgram_version, stepProgram_entryPoints, Program.zero,
      decodeBytecode_ok env bytecode none hb, decodeString, stepEntryPointByType_external, hext]

/-- C9, amended, on the document whose external entry point lists the builtin
`unknown` after `range_check`: the error comes with a pointer, and the program
holds the bytecode, the compiler version and the entry point with the
builtins `RangeCheck` and zero. -/
theorem programFromJSON_error_with_pointer_witness :
    (∀ b ∈ sampleBytecode, isOk (sampleEnv.feltUnmarshal b) = true) ∧
    isBuiltinToken (.str (lit "unknown")) = false ∧
    programDoc sampleBytecode (lit "2.1.0") ([] ++ unknownEntry :: []) [] [] sampleHintsDoc
      = unknownBuiltinDoc ∧
    (ProgramFromJSON sampleEnv (some unknownBuiltinDoc)).err?
      = some (.unknownBuiltin (lit "unknown")) ∧
    (∃ p, ProgramFromJSON sampleEnv (some unknownBuiltinDoc)
      = .ret (some p) (some (.unknownBuiltin (lit "unknown")))) ∧
    (∃ e, Builtin.UnmarshalJSON (render (.str (lit "unknown"))) = .error e ∧
      ProgramFromJSON sampleEnv
          (some (programDoc sampleBytecode (lit "2.1.0") ([] ++ unknownEntry :: []) [] []
            sampleHintsDoc))
        = .ret (some ⟨some (sampleBytecode.map (feltValue sampleEnv)), lit "2.1.0",
            ⟨some (([] : List EntryDoc).map (EntryDoc.decoded sampleEnv) ++
                [⟨feltValue sampleEnv unknownEntry.selector,
                  feltValue sampleEnv unknownEntry.offset,
                  some ([Json.str (lit "range_check")].map builtinValue ++ [0])⟩]), none, none⟩,
            none⟩) (some e)) ∧
    sampleBytecode.map (feltValue sampleEnv) = ([1, 2] : List Nat) ∧
    [Json.str (lit "range_check")].map builtinValue ++ [0] = [RangeCheck, 0] :=
  ⟨by decide, by decide, rfl, by decide,
    (programFromJSON_error_with_pointer sampleEnv).1 (some unknownBuiltinDoc)
      (.unknownBuiltin (lit "unknown")) (by decide),
    (programFromJSON_error_with_pointer sampleEnv).2.2.2 sampleBytecode (lit "2.1.0") []
      unknownEntry [] [] [] sampleHintsDoc [.str (lit "range_check")] [] (.str (lit "unknown"))
      (by decide) (fun _ h => absurd h (List.not_mem_nil _))
      (fun _ h => absurd h (List.not_mem_nil _))
      (by decide) (by decide) rfl (by decide) (by decide) (fun _ h => Json.noConfusion h),
    rfl, by decide⟩

end Starknet
